import Mathlib

/-!
# Verification of the `switch` profile-switching engine

Shallow embedding of `switch.go` (package `main` of the `switch` repository).
The file system is modelled as an association list from path strings to
entries (regular file with string content, or directory).  Paths are plain
strings; the path functions (`filepath.Clean`, `filepath.Join`,
`filepath.Dir`, `expandPath`, …) are modelled for a Unix platform
(`/` separator, `filepath.ToSlash` is the identity), which is the platform
the repository's own test-suite exercises for these code paths.

Engine operations (`AddAccount`, `SwitchAccount`, `CycleAccounts`,
`findCurrentAccount`, `SetDefaultApp`) are translated statement by
statement from `switch.go`.  Each mutating operation additionally returns a
ghost log of `saveConfig` invocations (path, encoded registry, success
flag); the log is pure instrumentation and has no influence on behaviour.
-/

namespace SwitchGo

/-! ## Character-level string utilities (Go `strings`/`path/filepath`) -/

/-- `strings.ReplaceAll(p, "\\", "/")` — single-character replacement. -/
def backslashToSlash (l : List Char) : List Char :=
  l.map fun c => if c = '\\' then '/' else c

/-- ASCII `strings.ToLower`. -/
def toLowerAscii (l : List Char) : List Char :=
  l.map fun c => if 'A' ≤ c ∧ c ≤ 'Z' then Char.ofNat (c.toNat + 32) else c

/-- Whitespace recognised by `strings.TrimSpace` (ASCII subset). -/
def isSpaceChar (c : Char) : Bool :=
  c = ' ' ∨ c = '\t' ∨ c = '\n' ∨ c = '\r'

/-- `strings.TrimSpace` (ASCII whitespace). -/
def trimSpace (l : List Char) : List Char :=
  ((l.dropWhile isSpaceChar).reverse.dropWhile isSpaceChar).reverse

/-- Split a character list on `/` (always returns at least one segment). -/
def splitSlash : List Char → List (List Char)
  | [] => [[]]
  | '/' :: rest => [] :: splitSlash rest
  | c :: rest =>
    match splitSlash rest with
    | s :: ss => (c :: s) :: ss
    | [] => [[c]]

/-- Join segments with `/`. -/
def joinSlash : List (List Char) → List Char
  | [] => []
  | [s] => s
  | s :: rest => s ++ '/' :: joinSlash rest

/-- The `..` segment. -/
def ddot : List Char := ['.', '.']

/-- Core of Go `path.Clean`: process segments left to right keeping a
reversed output stack.  Empty and `.` segments are dropped; `..` pops a
non-`..` entry, is dropped at the root, and is kept when there is nothing
to pop in a relative path. -/
def cleanCore (rooted : Bool) : List (List Char) → List (List Char) → List (List Char)
  | [], acc => acc.reverse
  | s :: rest, acc =>
    if s = [] then cleanCore rooted rest acc
    else if s = ['.'] then cleanCore rooted rest acc
    else if s = ddot then
      match acc with
      | a :: as =>
        if a = ddot then cleanCore rooted rest (ddot :: a :: as)
        else cleanCore rooted rest as
      | [] =>
        if rooted then cleanCore rooted rest []
        else cleanCore rooted rest [ddot]
    else cleanCore rooted rest (s :: acc)

/-- Render a cleaned path from its rootedness and segment list. -/
def renderPath (rooted : Bool) (segs : List (List Char)) : List Char :=
  if rooted then '/' :: joinSlash segs
  else if segs = [] then ['.'] else joinSlash segs

/-- Go `filepath.Clean` on a Unix platform, at the character level. -/
def cleanChars (l : List Char) : List Char :=
  let rooted := match l with | '/' :: _ => true | _ => false
  renderPath rooted (cleanCore rooted (splitSlash l) [])

/-- Go `filepath.Clean` (Unix). -/
def clean (s : String) : String := String.mk (cleanChars s.toList)

/-- Go `filepath.Dir` (Unix): everything up to and including the final `/`,
cleaned; `.` when there is no separator. -/
def dirname (s : String) : String :=
  String.mk (cleanChars ((s.toList.reverse.dropWhile (· ≠ '/')).reverse))

/-- Go `filepath.Join(a, b)` (Unix): join the non-empty elements with `/`
and clean the result; the empty string when both elements are empty. -/
def goJoin (a b : String) : String :=
  if a = "" then (if b = "" then "" else clean b)
  else if b = "" then clean a
  else clean (a ++ "/" ++ b)

/-- Substring test at the head of a character list. -/
def charsHaveHead : List Char → List Char → Bool
  | [], _ => true
  | _ :: _, [] => false
  | p :: ps, c :: cs => p = c && charsHaveHead ps cs

/-- Go `strings.ReplaceAll` for a non-empty pattern: non-overlapping
left-to-right replacement. -/
def replaceAllChars (pat rep : List Char) : Nat → List Char → List Char
  | 0, s => s
  | _ + 1, [] => []
  | fuel + 1, c :: cs =>
    if charsHaveHead pat (c :: cs) ∧ pat ≠ [] then
      rep ++ replaceAllChars pat rep fuel ((c :: cs).drop pat.length)
    else
      c :: replaceAllChars pat rep fuel cs

/-- Is `p` equal to `src` or strictly below it (i.e. `src ++ "/"` is a
prefix of `p`)? -/
def underPath (src p : String) : Bool :=
  p = src || charsHaveHead (src.toList ++ ['/']) p.toList

/-- Go `strings.ReplaceAll` at the string level (every replacement step
consumes at least one character, so `s.length` fuel is exact). -/
def replaceAll (s pat rep : String) : String :=
  String.mk (replaceAllChars pat.toList rep.toList s.toList.length s.toList)

/-- Lexicographic strict order on character lists (by code point; for
valid UTF-8 this coincides with Go's byte-wise string order). -/
def charsLt : List Char → List Char → Bool
  | [], [] => false
  | [], _ :: _ => true
  | _ :: _, [] => false
  | a :: as, b :: bs => if a = b then charsLt as bs else decide (a.toNat < b.toNat)

/-- The string order used by `sort.Strings` (byte-wise `<=`). -/
def strLe (a b : String) : Prop := charsLt b.toList a.toList = false

instance : DecidableRel strLe := fun a b =>
  inferInstanceAs (Decidable (charsLt b.toList a.toList = false))

/-- `contains` from `switch.go` (linear scan). -/
def containsStr : List String → String → Bool
  | [], _ => false
  | s :: rest, item => s = item || containsStr rest item

/-! ## `expandPath` and `resolveSwitchPattern` (switch.go:166-210)

`getHomeDir` reads the environment; it is modelled as an explicit `home`
parameter supplied to every function that calls it in the source. -/

/-- `expandPath` from switch.go:166-191, for a Unix platform
(`filepath.ToSlash` is the identity).  A leading `~` or `~/` is expanded
with the home directory; backslashes are first normalised to slashes; the
result is `filepath.Clean`ed. -/
def expandPath (home : String) (p : String) : String :=
  if p = "" then p
  else
    let l := backslashToSlash p.toList
    let l' :=
      if charsHaveHead ['~'] l then
        if l = ['~'] then home.toList
        else if charsHaveHead ['~', '/'] l then (goJoin home (String.mk (l.drop 2))).toList
        else l
      else l
    String.mk (cleanChars l')

/-- `resolveSwitchPattern` from switch.go:203-210. -/
def resolveSwitchPattern (home pattern authPath name : String) : String :=
  let r := replaceAll pattern "{auth_path}" authPath
  let r := replaceAll r "{name}" name
  let r := String.mk (backslashToSlash r.toList)
  expandPath home r

/-! ## File-system model

The on-disk state is an association list from (string) paths to entries.
`os.Stat` succeeds exactly on paths present in the list. -/

/-- A file-system entry: a regular file with its byte content (modelled as
a string), or a directory. -/
inductive Entry where
  | file (content : String)
  | dir
deriving DecidableEq, Repr

/-- File-system state: association list from path to entry. -/
abbrev FS := List (String × Entry)

/-- Look up a path (`os.Stat` succeeds iff this is `some _`). -/
def fsLookup : FS → String → Option Entry
  | [], _ => none
  | (q, e) :: rest, p => if q = p then some e else fsLookup rest p

/-- Write an entry at a path, replacing any existing entry. -/
def fsSet : FS → String → Entry → FS
  | [], p, e => [(p, e)]
  | (q, e') :: rest, p, e => if q = p then (p, e) :: rest else (q, e') :: fsSet rest p e

/-- `os.RemoveAll p`: delete `p` and everything strictly below it. -/
def fsRemoveAll (fs : FS) (p : String) : FS :=
  fs.filter fun qe => !underPath p qe.1

/-- `isFolder` from switch.go:198-201. -/
def isFolder (fs : FS) (p : String) : Bool :=
  fsLookup fs p = some Entry.dir

/-- `fileOrDirExists` from switch.go:193-196. -/
def fileOrDirExists (fs : FS) (p : String) : Bool :=
  (fsLookup fs p).isSome

/-- Order on file-system entries by path (the `filepath.Walk` order). -/
def entryLe (a b : String × Entry) : Prop := strLe a.1 b.1

instance : DecidableRel entryLe := fun a b => inferInstanceAs (Decidable (strLe a.1 b.1))

/-! ## JSON values (Go `encoding/json` unmarshalled into `map[string]interface{}`)

Go unmarshals JSON numbers into `float64`; the model uses exact rationals,
which agrees with Go on every number representable without double-precision
rounding (all inputs exercised here). -/

/-- A JSON value as produced by `json.Unmarshal` into `interface{}`. -/
inductive JVal where
  | jnull
  | jbool (b : Bool)
  | jnum (q : Rat)
  | jstr (s : String)
  | jarr (elems : List JVal)
  | jobj (kvs : List (String × JVal))
deriving Repr

mutual

/-- Boolean (deep, order-sensitive) equality of JSON values. -/
def JVal.eqb : JVal → JVal → Bool
  | .jnull, .jnull => true
  | .jbool a, .jbool b => a = b
  | .jnum a, .jnum b => a = b
  | .jstr a, .jstr b => a = b
  | .jarr xs, .jarr ys => JVal.eqbList xs ys
  | .jobj xs, .jobj ys => JVal.eqbKVList xs ys
  | _, _ => false

def JVal.eqbList : List JVal → List JVal → Bool
  | [], [] => true
  | x :: xs, y :: ys => JVal.eqb x y && JVal.eqbList xs ys
  | _, _ => false

def JVal.eqbKVList : List (String × JVal) → List (String × JVal) → Bool
  | [], [] => true
  | (k, v) :: xs, (k', v') :: ys => k = k' && JVal.eqb v v' && JVal.eqbKVList xs ys
  | _, _ => false

end

/-- Insert-or-replace for object members: Go's `m[key] = value` during
decoding (a later duplicate key overwrites the earlier one). -/
def upsert : List (String × JVal) → String → JVal → List (String × JVal)
  | [], k, v => [(k, v)]
  | (k', v') :: rest, k, v =>
    if k' = k then (k, v) :: rest else (k', v') :: upsert rest k v

/-- Key order used by `json.Marshal` on a Go map: ascending string keys. -/
def kvLe (a b : String × JVal) : Prop := strLe a.1 b.1

instance : DecidableRel kvLe := fun a b => inferInstanceAs (Decidable (strLe a.1 b.1))

/-- Canonical form of a JSON value, fuel-bounded: every object's members
sorted by key, recursively.  `json.Marshal` serialises a Go map in exactly
this order, so two unmarshalled values have equal marshalled bytes iff
their canonical forms are equal.  Fuel at least the nesting depth (for
which `sizeOf` is a safe bound) makes the recursion complete. -/
def canonF : Nat → JVal → JVal
  | 0, v => v
  | fuel + 1, JVal.jobj kvs =>
    JVal.jobj (List.insertionSort kvLe (kvs.map fun kv => (kv.1, canonF fuel kv.2)))
  | fuel + 1, JVal.jarr xs => JVal.jarr (xs.map (canonF fuel))
  | _ + 1, v => v

mutual

/-- Computable size of a JSON value (bounds the nesting depth). -/
def JVal.msize : JVal → Nat
  | .jarr xs => 1 + JVal.msizeList xs
  | .jobj kvs => 1 + JVal.msizeKV kvs
  | _ => 1

def JVal.msizeList : List JVal → Nat
  | [] => 0
  | x :: xs => JVal.msize x + JVal.msizeList xs + 1

def JVal.msizeKV : List (String × JVal) → Nat
  | [] => 0
  | kv :: xs => JVal.msize kv.2 + JVal.msizeKV xs + 1

end

/-- Canonical form with sufficient fuel (`msize` bounds the depth). -/
def JVal.canon (v : JVal) : JVal := canonF (JVal.msize v) v

/-- A decoded top-level document for `map[string]interface{}`:
`none` is the JSON literal `null` (Go leaves the map `nil`), `some kvs` is
an object. -/
abbrev JDoc := Option (List (String × JVal))

/-- Canonicalise a document as `json.Marshal` would render it. -/
def canonDoc : JDoc → JDoc
  | none => none
  | some kvs => match JVal.canon (.jobj kvs) with
    | .jobj kvs' => some kvs'
    | _ => some kvs

/-- `jsonEqual` from switch.go:308-312: marshal both maps (sorted keys at
every level) and compare the bytes. -/
def jsonEqual (a b : JDoc) : Bool :=
  match canonDoc a, canonDoc b with
  | none, none => true
  | some xs, some ys => JVal.eqbKVList xs ys
  | _, _ => false

/-! ## JSON text parser (model of `json.Unmarshal` into `map[string]interface{}`) -/

/-- JSON whitespace. -/
def isJsonWs (c : Char) : Bool :=
  c = ' ' ∨ c = '\t' ∨ c = '\n' ∨ c = '\r'

/-- Skip JSON whitespace. -/
def skipWs (l : List Char) : List Char := l.dropWhile isJsonWs

/-- Hexadecimal digit value. -/
def hexVal (c : Char) : Option Nat :=
  if '0' ≤ c ∧ c ≤ '9' then some (c.toNat - 48)
  else if 'a' ≤ c ∧ c ≤ 'f' then some (c.toNat - 87)
  else if 'A' ≤ c ∧ c ≤ 'F' then some (c.toNat - 55)
  else none

/-- Parse exactly four hex digits. -/
def parseHex4 : List Char → Option (Nat × List Char)
  | a :: b :: c :: d :: rest => do
    let x ← hexVal a
    let y ← hexVal b
    let z ← hexVal c
    let w ← hexVal d
    some (((x * 16 + y) * 16 + z) * 16 + w, rest)
  | _ => none

/-- Code point to character, with U+FFFD for invalid code points (Go's
replacement-character behaviour). -/
def uchar (n : Nat) : Char :=
  if n.isValidChar then Char.ofNat n else Char.ofNat 0xFFFD

/-- Parse the body of a JSON string (after the opening quote).  Standard
escapes are decoded; `\uXXXX` surrogate pairs are combined, with U+FFFD for
unpaired surrogates (approximating Go's replacement handling in those
invalid corners); unescaped control characters are an error. -/
def parseStrChars : Nat → List Char → Option (List Char × List Char)
  | 0, _ => none
  | _, [] => none
  | fuel + 1, c :: rest =>
    if c = '"' then some ([], rest)
    else if c = '\\' then
      match rest with
      | [] => none
      | e :: rest' =>
        let plain (d : Char) : Option (List Char × List Char) :=
          match parseStrChars fuel rest' with
          | some (cs, r) => some (d :: cs, r)
          | none => none
        if e = '"' then plain '"'
        else if e = '\\' then plain '\\'
        else if e = '/' then plain '/'
        else if e = 'b' then plain (Char.ofNat 8)
        else if e = 'f' then plain (Char.ofNat 12)
        else if e = 'n' then plain '\n'
        else if e = 'r' then plain '\r'
        else if e = 't' then plain '\t'
        else if e = 'u' then
          match parseHex4 rest' with
          | none => none
          | some (n, r1) =>
            if 0xD800 ≤ n ∧ n ≤ 0xDBFF then
              match r1 with
              | '\\' :: 'u' :: r2 =>
                match parseHex4 r2 with
                | some (m, r3) =>
                  if 0xDC00 ≤ m ∧ m ≤ 0xDFFF then
                    match parseStrChars fuel r3 with
                    | some (cs, r) =>
                      some (uchar (0x10000 + (n - 0xD800) * 0x400 + (m - 0xDC00)) :: cs, r)
                    | none => none
                  else
                    match parseStrChars fuel r1 with
                    | some (cs, r) => some (uchar 0xFFFD :: cs, r)
                    | none => none
                | none =>
                  match parseStrChars fuel r1 with
                  | some (cs, r) => some (uchar 0xFFFD :: cs, r)
                  | none => none
              | _ =>
                match parseStrChars fuel r1 with
                | some (cs, r) => some (uchar 0xFFFD :: cs, r)
                | none => none
            else if 0xDC00 ≤ n ∧ n ≤ 0xDFFF then
              match parseStrChars fuel r1 with
              | some (cs, r) => some (uchar 0xFFFD :: cs, r)
              | none => none
            else
              match parseStrChars fuel r1 with
              | some (cs, r) => some (uchar n :: cs, r)
              | none => none
        else none
    else if c.toNat < 0x20 then none
    else
      match parseStrChars fuel rest with
      | some (cs, r) => some (c :: cs, r)
      | none => none

/-- One or more decimal digits. -/
def parseDigits1 (l : List Char) : Option (List Char × List Char) :=
  let ds := l.takeWhile fun c => '0' ≤ c ∧ c ≤ '9'
  if ds = [] then none else some (ds, l.drop ds.length)

/-- Natural number from decimal digits. -/
def natFromDigits (ds : List Char) : Nat :=
  ds.foldl (fun acc c => acc * 10 + (c.toNat - 48)) 0

/-- Parse a JSON number per the JSON grammar (`-? int frac? exp?` with no
leading zeros).  Go stores the result in a `float64`; the model keeps the
exact rational value, which agrees with Go whenever no double-precision
rounding is involved. -/
def parseNumChars (l : List Char) : Option (Rat × List Char) :=
  let (neg, l1) := match l with
    | '-' :: r => (true, r)
    | _ => (false, l)
  let intPart : Option (List Char × List Char) :=
    match l1 with
    | '0' :: r => some (['0'], r)
    | c :: _ =>
      if '1' ≤ c ∧ c ≤ '9' then parseDigits1 l1 else none
    | [] => none
  match intPart with
  | none => none
  | some (ids, l2) =>
    let fracPart : Option (List Char × List Char) :=
      match l2 with
      | '.' :: r =>
        match parseDigits1 r with
        | some (ds, r') => some (ds, r')
        | none => none
      | _ => some ([], l2)
    match fracPart with
    | none => none
    | some (fds, l3) =>
      let expPart : Option (Int × List Char) :=
        match l3 with
        | 'e' :: r | 'E' :: r =>
          let (esign, r1) := match r with
            | '+' :: r' => ((1 : Int), r')
            | '-' :: r' => ((-1 : Int), r')
            | _ => ((1 : Int), r)
          match parseDigits1 r1 with
          | some (ds, r') => some (esign * (natFromDigits ds : Int), r')
          | none => none
        | _ => some (0, l3)
      match expPart with
      | none => none
      | some (ev, l4) =>
        let mant : Nat := natFromDigits (ids ++ fds)
        let e : Int := ev - (fds.length : Int)
        let q : Rat := if 0 ≤ e then mkRat ((mant * 10 ^ e.toNat : Nat) : Int) 1
          else mkRat (mant : Int) (10 ^ (-e).toNat)
        some (if neg then -q else q, l4)

/-- Fold duplicate object keys with later-wins map semantics
(`m[key] = value`). -/
def objFromMembers (ms : List (String × JVal)) : List (String × JVal) :=
  ms.foldl (fun acc kv => upsert acc kv.1 kv.2) []

mutual

/-- Parse one JSON value (after optional leading whitespace). -/
def parseVal : Nat → List Char → Option (JVal × List Char)
  | 0, _ => none
  | fuel + 1, l =>
    match skipWs l with
    | '{' :: rest =>
      (match skipWs rest with
      | '}' :: r2 => some (.jobj [], r2)
      | r => match parseMembers fuel r with
        | some (ms, r2) => some (.jobj (objFromMembers ms), r2)
        | none => none)
    | '[' :: rest =>
      (match skipWs rest with
      | ']' :: r2 => some (.jarr [], r2)
      | r => match parseElems fuel r with
        | some (xs, r2) => some (.jarr xs, r2)
        | none => none)
    | '"' :: rest =>
      (match parseStrChars (rest.length + 1) rest with
      | some (cs, r) => some (.jstr (String.mk cs), r)
      | none => none)
    | 't' :: 'r' :: 'u' :: 'e' :: rest => some (.jbool true, rest)
    | 'f' :: 'a' :: 'l' :: 's' :: 'e' :: rest => some (.jbool false, rest)
    | 'n' :: 'u' :: 'l' :: 'l' :: rest => some (.jnull, rest)
    | l' =>
      match parseNumChars l' with
      | some (q, r) => some (.jnum q, r)
      | none => none

/-- Parse the members of a non-empty object, starting at the first key,
up to and including the closing `}`. -/
def parseMembers : Nat → List Char → Option (List (String × JVal) × List Char)
  | 0, _ => none
  | fuel + 1, l =>
    match l with
    | '"' :: rest =>
      (match parseStrChars (rest.length + 1) rest with
      | none => none
      | some (kcs, r1) =>
        match skipWs r1 with
        | ':' :: r3 =>
          (match parseVal fuel r3 with
          | none => none
          | some (v, r4) =>
            match skipWs r4 with
            | ',' :: r6 =>
              (match parseMembers fuel (skipWs r6) with
              | some (ms, r7) => some ((String.mk kcs, v) :: ms, r7)
              | none => none)
            | '}' :: r6 => some ([(String.mk kcs, v)], r6)
            | _ => none)
        | _ => none)
    | _ => none

/-- Parse the elements of a non-empty array, up to and including `]`. -/
def parseElems : Nat → List Char → Option (List JVal × List Char)
  | 0, _ => none
  | fuel + 1, l =>
    match parseVal fuel l with
    | none => none
    | some (v, r1) =>
      match skipWs r1 with
      | ',' :: r2 =>
        (match parseElems fuel r2 with
        | some (xs, r3) => some (v :: xs, r3)
        | none => none)
      | ']' :: r2 => some ([v], r2)
      | _ => none

end

/-- `json.Unmarshal(data, &m)` for `m : map[string]interface{}`: the whole
input must be one JSON value surrounded only by whitespace, and that value
must be an object (or `null`, which leaves the map `nil`). -/
def unmarshalMap (s : String) : Option JDoc :=
  let l := s.toList
  match parseVal (l.length + 1) l with
  | some (v, rest) =>
    if skipWs rest = [] then
      match v with
      | .jobj kvs => some (some kvs)
      | .jnull => some none
      | _ => none
    else none
  | none => none

/-! ## Content comparison (switch.go:272-312) -/

/-- `fileEqual` from switch.go:281-297: read both files (failure, including
a directory path, gives `false`); if both parse as JSON documents compare
via `jsonEqual`, otherwise compare raw bytes. -/
def fileEqual (fs : FS) (a b : String) : Bool :=
  match fsLookup fs a with
  | some (.file aData) =>
    (match fsLookup fs b with
    | some (.file bData) =>
      (match unmarshalMap aData, unmarshalMap bData with
      | some da, some db => jsonEqual da db
      | _, _ => aData = bData)
    | _ => false)
  | _ => false

/-- `folderEqual` from switch.go:299-306. -/
def folderEqual (fs : FS) (a b : String) : Bool :=
  match fsLookup fs a, fsLookup fs b with
  | some ea, some eb => ea = Entry.dir && eb = Entry.dir
  | _, _ => false

/-- `contentEqual` from switch.go:272-279. -/
def contentEqual (fs : FS) (a b : String) : Bool :=
  if isFolder fs a && isFolder fs b then folderEqual fs a b
  else if !isFolder fs a && !isFolder fs b then fileEqual fs a b
  else false

/-! ## Copying (switch.go:213-270)

Failure causes not derivable from the modelled file-system state
(permission bits, disk-full) are outside the model; the modelled causes are
a missing source, a file standing where a directory is needed, a directory
standing at the destination path, and `io.Copy` failing to read the opened
source because it is a directory (`EISDIR`). -/

/-- A copy-step failure, tagged by the operation that failed. -/
inductive CopyErr where
  | statFailed
  | mkdirFailed
  | openDstFailed
  | readFailed
deriving DecidableEq, Repr

/-- `os.MkdirAll` with fuel (the recursion follows parent directories):
an existing directory is a no-op; an existing file is an error before
anything is created; otherwise the parent chain is created first. -/
def mkdirAllF : Nat → FS → String → FS × Option CopyErr
  | 0, fs, _ => (fs, some CopyErr.mkdirFailed)
  | fuel + 1, fs, d =>
    match fsLookup fs d with
    | some Entry.dir => (fs, none)
    | some (Entry.file _) => (fs, some CopyErr.mkdirFailed)
    | none =>
      let parent := dirname d
      if parent = d then (fsSet fs d Entry.dir, none)
      else
        match mkdirAllF fuel fs parent with
        | (fs', none) => (fsSet fs' d Entry.dir, none)
        | (fs', some e) => (fs', some e)

/-- `os.MkdirAll` (the fuel bound covers any parent chain). -/
def mkdirAll (fs : FS) (d : String) : FS × Option CopyErr :=
  mkdirAllF (d.toList.length + 2) fs d

/-- `copyFile` from switch.go:220-248.  The exact source order is kept:
stat the source, open it, create the destination's parent directories,
open the destination with `O_CREATE|O_TRUNC` (this truncates an existing
destination), then stream the source into it.  `io.Copy` reads the current
content at the source path; reading fails when that is a directory.
Permission propagation (`Chmod`) is not modelled. -/
def copyFile (fs : FS) (src dst : String) : FS × Option CopyErr :=
  match fsLookup fs src with
  | none => (fs, some CopyErr.statFailed)
  | some _ =>
    match mkdirAll fs (dirname dst) with
    | (fs1, some e) => (fs1, some e)
    | (fs1, none) =>
      match fsLookup fs1 dst with
      | some Entry.dir => (fs1, some CopyErr.openDstFailed)
      | _ =>
        let fs2 := fsSet fs1 dst (Entry.file "")
        match fsLookup fs2 src with
        | some (Entry.file c) => (fsSet fs2 dst (Entry.file c), none)
        | _ => (fs2, some CopyErr.readFailed)

/-- Destination path for one walked entry: `filepath.Join(dst,
filepath.Rel(src, p))`. -/
def relDst (src dst p : String) : String :=
  if p = src then clean dst
  else goJoin dst (String.mk (p.toList.drop (src.toList.length + 1)))

/-- One step of the `filepath.Walk` callback in `copyFolder`
(switch.go:251-269): directories are re-created at the destination, files
are copied; the first error aborts the walk. -/
def copyFolderStep (src dst : String) (acc : FS × Option CopyErr) (pe : String × Entry) :
    FS × Option CopyErr :=
  match acc with
  | (fs, some e) => (fs, some e)
  | (fs, none) =>
    let dstPath := relDst src dst pe.1
    match pe.2 with
    | Entry.dir => mkdirAll fs dstPath
    | Entry.file _ => copyFile fs pe.1 dstPath

/-- `copyFolder` from switch.go:250-270: walk the source subtree in
depth-first lexical order (which coincides with the lexicographic order of
full paths) and copy each entry. -/
def copyFolder (fs : FS) (src dst : String) : FS × Option CopyErr :=
  match fsLookup fs src with
  | none => (fs, some CopyErr.statFailed)
  | some _ =>
    let entries := List.insertionSort entryLe (fs.filter fun pe => underPath src pe.1)
    entries.foldl (copyFolderStep src dst) (fs, none)

/-- `copyPath` from switch.go:213-218. -/
def copyPath (fs : FS) (src dst : String) : FS × Option CopyErr :=
  if isFolder fs src then copyFolder fs src dst else copyFile fs src dst

/-! ## Registry and engine state (switch.go:29-159) -/

/-- `AppConfig` from switch.go:38-43. -/
structure AppConfig where
  current : String
  accounts : List String
  authPath : String
  switchPattern : String
deriving DecidableEq, Repr

/-- `Config` from switch.go:29-36 (the `default.config` field inlined). -/
structure Config where
  defaultConfig : String
  apps : List (String × AppConfig)
deriving DecidableEq, Repr

/-- Association-list lookup (Go map read). -/
def assocLookup {α : Type} : List (String × α) → String → Option α
  | [], _ => none
  | (k, v) :: rest, key => if k = key then some v else assocLookup rest key

/-- Association-list update (Go map write). -/
def assocSet {α : Type} : List (String × α) → String → α → List (String × α)
  | [], key, v => [(key, v)]
  | (k, v') :: rest, key, v =>
    if k = key then (key, v) :: rest else (k, v') :: assocSet rest key v

/-- `AppTemplate` from switch.go:45-50. -/
structure AppTemplate where
  detectPaths : List String
  authPath : String
  pattern : String
  description : String

/-- The built-in template table from switch.go:59-96. -/
def AppTemplates : List (String × AppTemplate) := [
  ("codex", ⟨["~/.codex/auth.json"], "~/.codex/auth.json",
    "{auth_path}.{name}.switch", "Codex authentication file"⟩),
  ("claude", ⟨["~/.claude/config.json"], "~/.claude/config.json",
    "{auth_path}.{name}.switch", "Claude configuration file"⟩),
  ("vscode", ⟨["~/.vscode/User", "~/Library/Application Support/Code/User"], "~/.vscode/User",
    "~/.vscode/profiles/{name}.switch", "VSCode user settings folder"⟩),
  ("cursor", ⟨["~/.cursor", "~/Library/Application Support/Cursor"], "~/.cursor",
    "~/.cursor/profiles/{name}.switch", "Cursor configuration folder"⟩),
  ("ssh", ⟨["~/.ssh"], "~/.ssh", "~/.ssh/profiles/{name}.switch", "SSH configuration folder"⟩),
  ("git", ⟨["~/.gitconfig"], "~/.gitconfig",
    "{auth_path}.{name}.switch", "Git configuration file"⟩)]

/-- `Switcher` from switch.go:52-55 (config always loaded). -/
structure Switcher where
  configPath : String
  config : Config
deriving DecidableEq, Repr

/-- Deterministic serialisation of the registry (stands in for the TOML
encoder; the claims never decode it). -/
def encodeConfig (c : Config) : String :=
  "default.config=" ++ c.defaultConfig ++ "\n" ++
    String.intercalate "\n" (c.apps.map fun (n, a) =>
      "apps." ++ n ++ "=" ++ a.current ++ "|" ++ String.intercalate "," a.accounts ++
        "|" ++ a.authPath ++ "|" ++ a.switchPattern)

/-- `saveConfig` from switch.go:151-159: `os.Create` truncates/creates the
config file and fails when the path is an existing directory (the failure
mode the repository's own tests exercise); then the registry is encoded
into it. -/
def saveConfig (fs : FS) (s : Switcher) : FS × Bool :=
  match fsLookup fs s.configPath with
  | some Entry.dir => (fs, false)
  | _ => (fsSet fs s.configPath (Entry.file (encodeConfig s.config)), true)

/-- Typed failure kinds, one per `fmt.Errorf` site reachable from the
modelled operations. -/
inductive Err where
  | noConfigFor (app : String)
  | authPathNotFound (p : String)
  | cancelledByUser
  | copyConfig (e : CopyErr)
  | createConfigFailed
  | accountNotFound (acc app : String)
  | switchFileNotFound (p : String)
  | switchConfig (e : CopyErr)
  | noAccounts
  | appNotFound (app : String)
  | saveDefaultFailed
deriving DecidableEq, Repr

/-- Result of one engine operation.  `saves` is a ghost log of the
`saveConfig` calls the operation performed (success flag each), in order;
it is pure instrumentation. -/
structure EngineOut where
  sw : Switcher
  fs : FS
  err : Option Err
  saves : List Bool
deriving DecidableEq, Repr

/-- `GetAppConfig` from switch.go:315-318. -/
def GetAppConfig (s : Switcher) (appName : String) : Option AppConfig :=
  assocLookup s.config.apps appName

/-- `SetAppConfig` from switch.go:320-322. -/
def SetAppConfig (s : Switcher) (appName : String) (ac : AppConfig) : Switcher :=
  { s with config := { s.config with apps := assocSet s.config.apps appName ac } }

/-- `AddAccount` from switch.go:324-382.  `home` models `getHomeDir`;
`stdinLine` models the one line read from stdin by the overwrite prompt
(consulted only when the account already exists). -/
def AddAccount (home stdinLine : String) (s : Switcher) (fs : FS)
    (appName accountName : String) : EngineOut :=
  let resolved : Sum AppConfig Err :=
    match GetAppConfig s appName with
    | some ac => Sum.inl ac
    | none =>
      match assocLookup AppTemplates appName with
      | none => Sum.inr (Err.noConfigFor appName)
      | some tpl =>
        let authPath := expandPath home tpl.authPath
        if (fsLookup fs authPath).isNone then Sum.inr (Err.authPathNotFound authPath)
        else Sum.inl ⟨"", [], tpl.authPath, tpl.pattern⟩
  match resolved with
  | Sum.inr e => ⟨s, fs, some e, []⟩
  | Sum.inl appConfig =>
    let authPath := expandPath home appConfig.authPath
    let switchPath := resolveSwitchPattern home appConfig.switchPattern authPath accountName
    let declined :=
      if containsStr appConfig.accounts accountName then
        let resp := String.mk (trimSpace (toLowerAscii stdinLine.toList))
        resp ≠ "yes" && resp ≠ "y"
      else false
    if declined then ⟨s, fs, some Err.cancelledByUser, []⟩
    else
      match copyPath fs authPath switchPath with
      | (fs1, some e) => ⟨s, fs1, some (Err.copyConfig e), []⟩
      | (fs1, none) =>
        let accounts' :=
          if containsStr appConfig.accounts accountName then appConfig.accounts
          else List.insertionSort strLe (appConfig.accounts ++ [accountName])
        let current' := if appConfig.current = "" then accountName else appConfig.current
        let s1 := SetAppConfig s appName
          { appConfig with accounts := accounts', current := current' }
        match saveConfig fs1 s1 with
        | (fs2, false) => ⟨s1, fsRemoveAll fs2 switchPath, some Err.createConfigFailed, [false]⟩
        | (fs2, true) => ⟨s1, fs2, none, [true]⟩

/-- `findCurrentAccount`'s account loop (switch.go:470-478): skip accounts
whose snapshot is missing, return the first whose snapshot is
content-equal to the live artifact. -/
def findMatchLoop (home : String) (fs : FS) (ac : AppConfig) (authPath : String) :
    List String → String
  | [] => ""
  | accountName :: rest =>
    let switchPath := resolveSwitchPattern home ac.switchPattern authPath accountName
    if (fsLookup fs switchPath).isNone then findMatchLoop home fs ac authPath rest
    else if contentEqual fs authPath switchPath then accountName
    else findMatchLoop home fs ac authPath rest

/-- `findCurrentAccount` from switch.go:459-480. -/
def findCurrentAccount (home : String) (s : Switcher) (fs : FS) (appName : String) : String :=
  match GetAppConfig s appName with
  | none => ""
  | some ac =>
    let authPath := expandPath home ac.authPath
    if (fsLookup fs authPath).isNone then ""
    else findMatchLoop home fs ac authPath ac.accounts

/-- The successor loop of `CycleAccounts` (switch.go:446-451): find the
first index holding `current` and return the cyclically next account. -/
def nextAfterLoop (all : List String) (current : String) : List String → Nat → String
  | [], _ => ""
  | a :: rest, i =>
    if a = current then all.getD ((i + 1) % all.length) ""
    else nextAfterLoop all current rest (i + 1)

mutual

/-- `SwitchAccount` from switch.go:384-426, with a fuel bound on the
mutual recursion with `CycleAccounts` (an empty `accountName` delegates to
cycling; `none` means the fuel ran out, which on states whose account
names are non-empty cannot happen with fuel ≥ 2). -/
def SwitchAccountF (home : String) (s : Switcher) (fs : FS) (appName accountName : String) :
    Nat → Option EngineOut
  | 0 => none
  | fuel + 1 =>
    match GetAppConfig s appName with
    | none => some ⟨s, fs, some (Err.noConfigFor appName), []⟩
    | some ac =>
      if accountName = "" then
        CycleAccountsF home s fs appName fuel
      else if !containsStr ac.accounts accountName then
        some ⟨s, fs, some (Err.accountNotFound accountName appName), []⟩
      else
        let authPath := expandPath home ac.authPath
        let switchPath := resolveSwitchPattern home ac.switchPattern authPath accountName
        if (fsLookup fs switchPath).isNone then
          some ⟨s, fs, some (Err.switchFileNotFound switchPath), []⟩
        else
          let currentAccount := findCurrentAccount home s fs appName
          let fs1 :=
            if currentAccount ≠ "" ∧ currentAccount ≠ accountName then
              (copyPath fs authPath
                (resolveSwitchPattern home ac.switchPattern authPath currentAccount)).1
            else fs
          match copyPath fs1 switchPath authPath with
          | (fs2, some e) => some ⟨s, fs2, some (Err.switchConfig e), []⟩
          | (fs2, none) =>
            let s1 := SetAppConfig s appName { ac with current := accountName }
            let so := saveConfig fs2 s1
            some ⟨s1, so.1, none, [so.2]⟩

/-- `CycleAccounts` from switch.go:428-457. -/
def CycleAccountsF (home : String) (s : Switcher) (fs : FS) (appName : String) :
    Nat → Option EngineOut
  | 0 => none
  | fuel + 1 =>
    match GetAppConfig s appName with
    | none => some ⟨s, fs, some (Err.noConfigFor appName), []⟩
    | some ac =>
      if ac.accounts.length = 0 then some ⟨s, fs, some Err.noAccounts, []⟩
      else
        let current := findCurrentAccount home s fs appName
        let next :=
          if current = "" then ac.accounts.getD 0 ""
          else
            let n := nextAfterLoop ac.accounts current ac.accounts 0
            if n = "" then ac.accounts.getD 0 "" else n
        SwitchAccountF home s fs appName next fuel

end

/-- `SetDefaultApp` from switch.go:531-549. -/
def SetDefaultApp (s : Switcher) (fs : FS) (appName : String) : EngineOut :=
  match GetAppConfig s appName with
  | none => ⟨s, fs, some (Err.appNotFound appName), []⟩
  | some _ =>
    let s1 := { s with config := { s.config with defaultConfig := appName } }
    let so := saveConfig fs s1
    if so.2 then ⟨s1, so.1, none, [true]⟩
    else ⟨s1, so.1, some Err.saveDefaultFailed, [false]⟩

/-! ## Specification-side definitions

Written from the specification's words, to be compared with the
source-derived functions. -/

/-- `findCurrent` as §4.5 of the spec words it: iterate `profileNames` in
stored order, keep only profiles whose resolved snapshot path exists on
disk, and return the first whose snapshot is Content-Comparator-equal to
the live artifact (empty if none matches). -/
def findCurrentSpec (home : String) (fs : FS) (ac : AppConfig) (authPath : String) : String :=
  ((ac.accounts.filter fun n =>
      (fsLookup fs (resolveSwitchPattern home ac.switchPattern authPath n)).isSome).find?
    fun n => contentEqual fs authPath
      (resolveSwitchPattern home ac.switchPattern authPath n)).getD ""

/-- The sorted-and-duplicate-free registry invariant of §3. -/
def AccountsSortedNodup (s : Switcher) : Prop :=
  ∀ app ac, GetAppConfig s app = some ac →
    ac.accounts.Sorted strLe ∧ ac.accounts.Nodup

/-! ## Concrete scenarios used by witnesses and counterexamples -/

/-- Example home directory. -/
def exHome : String := "/h"

/-- Registry file path used by the example states. -/
def exCfgPath : String := "/h/.switch.toml"

/-- Example application: three registered profiles, sorted. -/
def exAc : AppConfig := ⟨"a", ["a", "b", "c"], "/h/auth.json", "{auth_path}.{name}.switch"⟩

/-- Example engine state for the cycling scenarios. -/
def exSw : Switcher := ⟨exCfgPath, ⟨"app", [("app", exAc)]⟩⟩

/-- Example file system: live artifact matches snapshot `a`. -/
def exFs : FS :=
  [(exCfgPath, Entry.file "cfg"), ("/h/auth.json", Entry.file "A"),
   ("/h/auth.json.a.switch", Entry.file "A"), ("/h/auth.json.b.switch", Entry.file "B"),
   ("/h/auth.json.c.switch", Entry.file "C")]

/-- First cycle from `exSw`/`exFs`. -/
def exCycle1 : Option EngineOut := CycleAccountsF exHome exSw exFs "app" 3

/-- Second consecutive cycle. -/
def exCycle2 : Option EngineOut :=
  exCycle1.bind fun r => CycleAccountsF exHome r.sw r.fs "app" 3

/-- Third consecutive cycle. -/
def exCycle3 : Option EngineOut :=
  exCycle2.bind fun r => CycleAccountsF exHome r.sw r.fs "app" 3

/-- Rollback scenario: the registry path is a directory, so `saveConfig`
fails (the failure mode the repository's own test induces). -/
def rbSw : Switcher :=
  ⟨"/h/cfgdir", ⟨"app", [("app", ⟨"a", ["a"], "/h/auth.json", "{auth_path}.{name}.switch"⟩)]⟩⟩

/-- File system for the rollback scenario. -/
def rbFs : FS :=
  [("/", Entry.dir), ("/h", Entry.dir), ("/h/cfgdir", Entry.dir),
   ("/h/auth.json", Entry.file "A"), ("/h/auth.json.a.switch", Entry.file "A")]

/-- The failed `AddAccount` call of the rollback scenario. -/
def rbOut : EngineOut := AddAccount exHome "" rbSw rbFs "app" "p1"

/-- Switch-failure scenario: the live artifact is a directory while the
target snapshot is a file, so the copy onto the live path fails at the
destination open. -/
def sfSw : Switcher :=
  ⟨exCfgPath, ⟨"app", [("app", ⟨"", ["a", "b"], "/h/authdir", "{auth_path}.{name}.switch"⟩)]⟩⟩

/-- File system for the switch-failure scenario. -/
def sfFs : FS :=
  [("/", Entry.dir), ("/h", Entry.dir), (exCfgPath, Entry.file "cfg"),
   ("/h/authdir", Entry.dir), ("/h/authdir.b.switch", Entry.file "B")]

/-- Copy-truncation scenario: a directory source with a file destination. -/
def ctFs : FS := [("/h/d", Entry.dir), ("/h/out", Entry.file "precious")]

/-- JSON-comparison scenario: two key-order-permuted documents, one
differing value, and a whitespace variant. -/
def jsonFs : FS :=
  [("/j/a", Entry.file "\x7b\x22k\x22:1,\x22z\x22:2\x7d"),
   ("/j/b", Entry.file "\x7b\x22z\x22:2,\x22k\x22:1\x7d"),
   ("/j/c", Entry.file "\x7b\x22k\x22:2\x7d"),
   ("/j/d", Entry.file "\x7b\x22k\x22:1\x7d"),
   ("/j/e", Entry.file " \x7b  \x22k\x22 : 1 ,\n\t\x22z\x22: 2 \x7d "),
   ("/j/t", Entry.file "plain"), ("/j/u", Entry.file "plain"), ("/j/v", Entry.file "other")]

/-! ## Basic file-system lemmas -/

theorem underPath_self (p : String) : underPath p p = true := by
  simp [underPath]

theorem fsLookup_fsSet_self (fs : FS) (p : String) (e : Entry) :
    fsLookup (fsSet fs p e) p = some e := by
  induction fs with
  | nil => simp [fsSet, fsLookup]
  | cons qe rest ih =>
    obtain ⟨q, e'⟩ := qe
    by_cases hq : q = p <;> simp [fsSet, fsLookup, hq, ih]

theorem fsLookup_fsSet_ne (fs : FS) (p q : String) (e : Entry) (h : q ≠ p) :
    fsLookup (fsSet fs p e) q = fsLookup fs q := by
  have h' : ¬ p = q := fun hpq => h hpq.symm
  induction fs with
  | nil => simp [fsSet, fsLookup, h']
  | cons re rest ih =>
    obtain ⟨r, e'⟩ := re
    by_cases hr : r = p
    · subst hr
      simp [fsSet, fsLookup, h']
    · by_cases hrq : r = q <;> simp [fsSet, fsLookup, hr, hrq, ih, h', h]

theorem fsRemoveAll_lookup_self (fs : FS) (p : String) :
    fsLookup (fsRemoveAll fs p) p = none := by
  induction fs with
  | nil => rfl
  | cons qe rest ih =>
    obtain ⟨q, e⟩ := qe
    by_cases hu : underPath p q = true
    · simpa [fsRemoveAll, List.filter_cons, hu] using ih
    · have hq : ¬ q = p := by
        intro hqp
        exact hu (by simp [underPath, hqp])
      simp only [fsRemoveAll, List.filter_cons] at ih ⊢
      simp [hu, fsLookup, hq]
      exact ih

theorem fsRemoveAll_frame (fs : FS) (p q : String) (h : underPath p q = false) :
    fsLookup (fsRemoveAll fs p) q = fsLookup fs q := by
  induction fs with
  | nil => rfl
  | cons re rest ih =>
    obtain ⟨r, e⟩ := re
    by_cases hr : r = q
    · subst hr
      simp [fsRemoveAll, List.filter_cons, h, fsLookup]
    · by_cases hu : underPath p r = true <;>
        simp [fsRemoveAll, List.filter_cons, hu, fsLookup, hr] <;>
        simpa [fsRemoveAll] using ih

theorem assocLookup_assocSet_self {α : Type} (l : List (String × α)) (k : String) (v : α) :
    assocLookup (assocSet l k v) k = some v := by
  induction l with
  | nil => simp [assocSet, assocLookup]
  | cons kv rest ih =>
    obtain ⟨k', v'⟩ := kv
    by_cases hk : k' = k <;> simp [assocSet, assocLookup, hk, ih]

theorem assocLookup_assocSet_ne {α : Type} (l : List (String × α)) (k q : String) (v : α)
    (h : q ≠ k) : assocLookup (assocSet l k v) q = assocLookup l q := by
  have h' : ¬ k = q := fun hkq => h hkq.symm
  induction l with
  | nil => simp [assocSet, assocLookup, h']
  | cons kv rest ih =>
    obtain ⟨k', v'⟩ := kv
    by_cases hk : k' = k
    · subst hk
      simp [assocSet, assocLookup, h']
    · by_cases hkq : k' = q <;> simp [assocSet, assocLookup, hk, hkq, ih, h', h]

theorem containsStr_eq_true_iff (l : List String) (x : String) :
    containsStr l x = true ↔ x ∈ l := by
  induction l with
  | nil => simp [containsStr]
  | cons s rest ih =>
    by_cases hs : s = x <;> simp [containsStr, hs, ih]
    exact fun h => (hs h.symm).elim

/-! ## `mkdirAll` and `copyFile` error lemmas -/

theorem mkdirAllF_error (fuel : Nat) (fs : FS) (d : String) (fs' : FS) (e : CopyErr)
    (h : mkdirAllF fuel fs d = (fs', some e)) : fs' = fs ∧ e = CopyErr.mkdirFailed := by
  induction fuel generalizing d fs' e with
  | zero => simp [mkdirAllF] at h; exact ⟨h.1.symm, h.2.symm⟩
  | succ n ih =>
    rw [mkdirAllF] at h
    match hl : fsLookup fs d with
    | some Entry.dir => rw [hl] at h; simp at h
    | some (Entry.file c) =>
      rw [hl] at h; simp at h
      exact ⟨h.1.symm, h.2.symm⟩
    | none =>
      rw [hl] at h
      simp only at h
      by_cases hp : dirname d = d
      · simp [hp] at h
      · simp only [hp, if_false] at h
        match hrec : mkdirAllF n fs (dirname d) with
        | (fs2, none) => rw [hrec] at h; simp at h
        | (fs2, some e2) =>
          rw [hrec] at h
          simp at h
          obtain ⟨h1, h2⟩ := h
          obtain ⟨hfs, he⟩ := ih (dirname d) fs2 e2 hrec
          exact ⟨h1.symm.trans hfs, h2.symm.trans he⟩

theorem mkdirAllF_frame (fuel : Nat) (fs : FS) (d q : String) :
    fsLookup (mkdirAllF fuel fs d).1 q = fsLookup fs q ∨ fsLookup fs q = none := by
  induction fuel generalizing d with
  | zero => simp [mkdirAllF]
  | succ n ih =>
    rw [mkdirAllF]
    match hl : fsLookup fs d with
    | some Entry.dir => simp
    | some (Entry.file c) => simp
    | none =>
      simp only
      by_cases hp : dirname d = d
      · simp only [hp, if_true]
        by_cases hq : q = d
        · subst hq
          right
          exact hl
        · left
          exact fsLookup_fsSet_ne fs d q Entry.dir hq
      · simp only [hp, if_false]
        match hrec : mkdirAllF n fs (dirname d) with
        | (fs2, none) =>
          simp only
          have := ih (dirname d)
          rw [hrec] at this
          by_cases hq : q = d
          · subst hq
            right
            exact hl
          · rw [fsLookup_fsSet_ne fs2 d q Entry.dir hq]
            exact this
        | (fs2, some e2) =>
          simp only
          have := ih (dirname d)
          rw [hrec] at this
          exact this

/-- `C3` amended, part lemma: on every `copyFile` failure the destination
keeps its prior regular-file content except when the failure happens
during the read, in which case the destination has been truncated. -/
theorem mkdirAll_error (fs : FS) (d : String) (fs' : FS) (e : CopyErr)
    (h : mkdirAll fs d = (fs', some e)) : fs' = fs ∧ e = CopyErr.mkdirFailed := by
  unfold mkdirAll at h
  exact mkdirAllF_error _ fs d fs' e h

theorem mkdirAll_frame (fs : FS) (d q : String) :
    fsLookup (mkdirAll fs d).1 q = fsLookup fs q ∨ fsLookup fs q = none := by
  unfold mkdirAll
  exact mkdirAllF_frame _ fs d q

theorem copyFile_error_dst (fs : FS) (src dst : String) (fs' : FS) (e : CopyErr)
    (h : copyFile fs src dst = (fs', some e)) :
    (e = CopyErr.statFailed → fs' = fs) ∧
    (e = CopyErr.mkdirFailed → fs' = fs) ∧
    (e = CopyErr.openDstFailed →
      ∀ c, fsLookup fs dst = some (Entry.file c) → fsLookup fs' dst = some (Entry.file c)) ∧
    (e = CopyErr.readFailed → fsLookup fs' dst = some (Entry.file "")) := by
  unfold copyFile at h
  match hsrc : fsLookup fs src with
  | none =>
    rw [hsrc] at h
    have h1 : fs = fs' := congrArg Prod.fst h
    have h2 : CopyErr.statFailed = e := Option.some.inj (congrArg Prod.snd h)
    subst h1
    subst h2
    exact ⟨fun _ => rfl, fun hc => CopyErr.noConfusion hc, fun hc => CopyErr.noConfusion hc,
      fun hc => CopyErr.noConfusion hc⟩
  | some se =>
    rw [hsrc] at h
    simp only at h
    match hmk : mkdirAll fs (dirname dst) with
    | (fs1, some e1) =>
      rw [hmk] at h
      have h1 : fs1 = fs' := congrArg Prod.fst h
      have h2 : e1 = e := Option.some.inj (congrArg Prod.snd h)
      obtain ⟨hfs, he⟩ := mkdirAll_error fs (dirname dst) fs1 e1 hmk
      subst h1
      subst h2
      subst hfs
      subst he
      exact ⟨fun hc => CopyErr.noConfusion hc, fun _ => rfl, fun hc => CopyErr.noConfusion hc,
        fun hc => CopyErr.noConfusion hc⟩
    | (fs1, none) =>
      rw [hmk] at h
      simp only at h
      match hdst : fsLookup fs1 dst with
      | some Entry.dir =>
        rw [hdst] at h
        have h1 : fs1 = fs' := congrArg Prod.fst h
        have h2 : CopyErr.openDstFailed = e := Option.some.inj (congrArg Prod.snd h)
        subst h1
        subst h2
        refine ⟨fun hc => CopyErr.noConfusion hc, fun hc => CopyErr.noConfusion hc,
          fun _ c hc => ?_, fun hc => CopyErr.noConfusion hc⟩
        have hfr := mkdirAll_frame fs (dirname dst) dst
        rw [hmk] at hfr
        simp only at hfr
        rcases hfr with hsame | hnone
        · rw [hc] at hsame
          rw [hsame] at hdst
          exact absurd hdst (by simp)
        · rw [hc] at hnone
          exact absurd hnone (by simp)
      | some (Entry.file c0) =>
        rw [hdst] at h
        simp only at h
        match hs2 : fsLookup (fsSet fs1 dst (Entry.file "")) src with
        | some (Entry.file c) => rw [hs2] at h; exact absurd (congrArg Prod.snd h) (by simp)
        | some Entry.dir =>
          rw [hs2] at h
          have h1 : fsSet fs1 dst (Entry.file "") = fs' := congrArg Prod.fst h
          have h2 : CopyErr.readFailed = e := Option.some.inj (congrArg Prod.snd h)
          subst h1
          subst h2
          exact ⟨fun hc => CopyErr.noConfusion hc, fun hc => CopyErr.noConfusion hc,
            fun hc => CopyErr.noConfusion hc,
            fun _ => fsLookup_fsSet_self fs1 dst (Entry.file "")⟩
        | none =>
          rw [hs2] at h
          have h1 : fsSet fs1 dst (Entry.file "") = fs' := congrArg Prod.fst h
          have h2 : CopyErr.readFailed = e := Option.some.inj (congrArg Prod.snd h)
          subst h1
          subst h2
          exact ⟨fun hc => CopyErr.noConfusion hc, fun hc => CopyErr.noConfusion hc,
            fun hc => CopyErr.noConfusion hc,
            fun _ => fsLookup_fsSet_self fs1 dst (Entry.file "")⟩
      | none =>
        rw [hdst] at h
        simp only at h
        match hs2 : fsLookup (fsSet fs1 dst (Entry.file "")) src with
        | some (Entry.file c) => rw [hs2] at h; exact absurd (congrArg Prod.snd h) (by simp)
        | some Entry.dir =>
          rw [hs2] at h
          have h1 : fsSet fs1 dst (Entry.file "") = fs' := congrArg Prod.fst h
          have h2 : CopyErr.readFailed = e := Option.some.inj (congrArg Prod.snd h)
          subst h1
          subst h2
          exact ⟨fun hc => CopyErr.noConfusion hc, fun hc => CopyErr.noConfusion hc,
            fun hc => CopyErr.noConfusion hc,
            fun _ => fsLookup_fsSet_self fs1 dst (Entry.file "")⟩
        | none =>
          rw [hs2] at h
          have h1 : fsSet fs1 dst (Entry.file "") = fs' := congrArg Prod.fst h
          have h2 : CopyErr.readFailed = e := Option.some.inj (congrArg Prod.snd h)
          subst h1
          subst h2
          exact ⟨fun hc => CopyErr.noConfusion hc, fun hc => CopyErr.noConfusion hc,
            fun hc => CopyErr.noConfusion hc,
            fun _ => fsLookup_fsSet_self fs1 dst (Entry.file "")⟩

/-! ## Claim C10: content equality is not reflexive for unreadable paths -/

/-- C10: for every path that does not exist on disk, `contentEqual p p`
returns `false` even though both arguments are the same path (reading the
file fails, and `fileEqual` returns `false` on any read failure). -/
theorem contentEqual_self_nonexistent (fs : FS) (p : String) (h : fsLookup fs p = none) :
    contentEqual fs p p = false := by
  simp [contentEqual, isFolder, fileEqual, h]

theorem contentEqual_self_nonexistent_witness :
    contentEqual [] "/nope" "/nope" = false :=
  contentEqual_self_nonexistent [] "/nope" rfl

/-! ## Claim C3: copy-failure effect on the destination -/

/-- C3 counterexample: `copyFile` opens the destination with `O_TRUNC`
before the source content is streamed, so a copy whose read fails (here:
the source path is a directory, so `io.Copy` fails with `EISDIR`) leaves
the destination truncated to empty — its prior content `"precious"` is
destroyed, contradicting the claim that a failed copy never corrupts or
truncates the destination. -/
theorem copyFile_truncation_counterexample :
    (copyFile ctFs "/h/d" "/h/out").2 = some CopyErr.readFailed ∧
    fsLookup ctFs "/h/out" = some (Entry.file "precious") ∧
    fsLookup (copyFile ctFs "/h/d" "/h/out").1 "/h/out" = some (Entry.file "") := by
  decide

/-- C3 (amended): on a `copyFile` failure the destination keeps its prior
regular-file content when the failure is detected before the destination
is opened (missing source, parent-directory creation failure, destination
open failure); but a failure during the read, after the destination was
already opened with truncation, leaves the destination truncated to an
empty file. -/
theorem copyFile_failure_dst_effect (fs : FS) (src dst : String) (fs' : FS) (e : CopyErr)
    (h : copyFile fs src dst = (fs', some e)) :
    (e = CopyErr.statFailed → fs' = fs) ∧
    (e = CopyErr.mkdirFailed → fs' = fs) ∧
    (e = CopyErr.openDstFailed →
      ∀ c, fsLookup fs dst = some (Entry.file c) → fsLookup fs' dst = some (Entry.file c)) ∧
    (e = CopyErr.readFailed → fsLookup fs' dst = some (Entry.file "")) :=
  copyFile_error_dst fs src dst fs' e h

theorem copyFile_failure_dst_effect_witness :
    fsLookup [("/h/d", Entry.dir), ("/h/out", Entry.file ""), ("/", Entry.dir),
      ("/h", Entry.dir)] "/h/out" = some (Entry.file "") :=
  (copyFile_failure_dst_effect ctFs "/h/d" "/h/out"
    [("/h/d", Entry.dir), ("/h/out", Entry.file ""), ("/", Entry.dir), ("/h", Entry.dir)]
    CopyErr.readFailed (by decide)).2.2.2 rfl

/-! ## Claim C4: switching to an unregistered profile -/

/-- C4 counterexample: the claim quantifies over every requested name not
in `profileNames`, but the empty name is handled before the membership
check — `SwitchAccount(app, "")` delegates to `CycleAccounts`, which here
succeeds (no `ProfileNotFound`) and performs file writes. -/
theorem switch_empty_name_counterexample :
    containsStr exAc.accounts "" = false ∧
    (SwitchAccountF exHome exSw exFs "app" "" 3).map EngineOut.err = some none ∧
    (SwitchAccountF exHome exSw exFs "app" "" 3).map EngineOut.fs ≠ some exFs := by
  decide

/-- C4 (amended): for every configured application and every non-empty
requested name not in `profileNames`, `SwitchAccount` returns the
account-not-found failure and performs no writes at all: the file system,
the registry and the save log are untouched. -/
theorem switch_missing_profile_no_writes (home : String) (s : Switcher) (fs : FS)
    (app name : String) (fuel : Nat) (ac : AppConfig)
    (hac : GetAppConfig s app = some ac) (hne : name ≠ "")
    (hmiss : containsStr ac.accounts name = false) :
    SwitchAccountF home s fs app name (fuel + 1) =
      some ⟨s, fs, some (Err.accountNotFound name app), []⟩ := by
  simp only [SwitchAccountF]
  rw [hac]
  simp [hne, hmiss]

theorem switch_missing_profile_no_writes_witness :
    SwitchAccountF exHome exSw exFs "app" "missing" (0 + 1) =
      some ⟨exSw, exFs, some (Err.accountNotFound "missing" "app"), []⟩ :=
  switch_missing_profile_no_writes exHome exSw exFs "app" "missing" 0 exAc (by decide)
    (by decide) (by decide)

/-! ## Claim C6: `findCurrentAccount` against its specification -/

theorem findMatchLoop_eq_spec (home : String) (fs : FS) (ac : AppConfig) (authPath : String)
    (l : List String) :
    findMatchLoop home fs ac authPath l =
      ((l.filter fun n =>
          (fsLookup fs (resolveSwitchPattern home ac.switchPattern authPath n)).isSome).find?
        fun n => contentEqual fs authPath
          (resolveSwitchPattern home ac.switchPattern authPath n)).getD "" := by
  induction l with
  | nil => rfl
  | cons a rest ih =>
    rw [findMatchLoop, List.filter_cons]
    rcases hl : fsLookup fs (resolveSwitchPattern home ac.switchPattern authPath a) with _ | e
    · simp only [hl, Option.isNone_none, Option.isSome_none, if_true]
      rw [if_neg (by simp)]
      exact ih
    · simp only [hl, Option.isNone_some, Option.isSome_some]
      rw [if_neg (by simp)]
      rw [if_pos trivial]
      by_cases heq : contentEqual fs authPath
          (resolveSwitchPattern home ac.switchPattern authPath a) = true
      · rw [if_pos heq]
        simp [List.find?, heq]
      · rw [if_neg heq]
        have heq' : contentEqual fs authPath
            (resolveSwitchPattern home ac.switchPattern authPath a) = false := by
          simpa using heq
        simp only [List.find?, heq']
        exact ih

/-- C6: `findCurrentAccount` returns empty when the live artifact does
not exist; otherwise it iterates `profileNames` in stored order, skips
profiles whose snapshot path does not exist, and returns the first whose
snapshot is content-equal to the live artifact (empty when none matches)
— exactly the specification-side `findCurrentSpec`. -/
theorem findCurrentAccount_meets_spec (home : String) (s : Switcher) (fs : FS) (app : String)
    (ac : AppConfig) (hac : GetAppConfig s app = some ac) :
    findCurrentAccount home s fs app =
      if (fsLookup fs (expandPath home ac.authPath)).isNone then ""
      else findCurrentSpec home fs ac (expandPath home ac.authPath) := by
  unfold findCurrentAccount
  rw [hac]
  by_cases h : (fsLookup fs (expandPath home ac.authPath)).isNone <;>
    simp [h, findCurrentSpec, findMatchLoop_eq_spec]

theorem findCurrentAccount_meets_spec_witness :
    findCurrentAccount exHome exSw exFs "app" =
      if (fsLookup exFs (expandPath exHome exAc.authPath)).isNone then ""
      else findCurrentSpec exHome exFs exAc (expandPath exHome exAc.authPath) :=
  findCurrentAccount_meets_spec exHome exSw exFs "app" exAc (by decide)

/-! ## Claim C1: rollback when registry persistence fails in `AddAccount` -/

/-- C1 counterexample: when `saveConfig` fails after a successful snapshot
copy, `AddAccount` deletes the snapshot but does **not** undo the
in-memory registry mutation — after the failed call the application's
`profileNames` still contains the newly added name `"p1"`, contradicting
the claim that it does not. -/
theorem addAccount_rollback_counterexample :
    rbOut.err = some Err.createConfigFailed ∧
    fsLookup rbOut.fs "/h/auth.json.p1.switch" = none ∧
    (GetAppConfig rbOut.sw "app").map (fun a => containsStr a.accounts "p1") = some true := by
  decide

/-- C1 (amended): if `AddAccount` gets through the snapshot copy and then
registry persistence fails, the snapshot created in that call is removed
and the persisted registry file is untouched (so the persisted
`profileNames` does not contain the new name) — provided the registry
path is not aliased by the copy or located under the snapshot path — but
the **in-memory** registry retains the newly added name, and exactly one
(failed) persistence attempt was made. -/
theorem addAccount_save_failure_rollback
    (home stdin : String) (s : Switcher) (fs : FS) (app acc : String) (ac : AppConfig)
    (fs1 : FS)
    (hac : GetAppConfig s app = some ac)
    (hnew : containsStr ac.accounts acc = false)
    (hcp : copyPath fs (expandPath home ac.authPath)
        (resolveSwitchPattern home ac.switchPattern (expandPath home ac.authPath) acc)
      = (fs1, none))
    (hdir : fsLookup fs1 s.configPath = some Entry.dir)
    (hnoalias : fsLookup fs1 s.configPath = fsLookup fs s.configPath)
    (hnotunder : underPath (resolveSwitchPattern home ac.switchPattern
        (expandPath home ac.authPath) acc) s.configPath = false) :
    AddAccount home stdin s fs app acc =
      ⟨SetAppConfig s app { ac with
          accounts := List.insertionSort strLe (ac.accounts ++ [acc]),
          current := if ac.current = "" then acc else ac.current },
        fsRemoveAll fs1 (resolveSwitchPattern home ac.switchPattern
          (expandPath home ac.authPath) acc),
        some Err.createConfigFailed, [false]⟩ ∧
    fsLookup (fsRemoveAll fs1 (resolveSwitchPattern home ac.switchPattern
        (expandPath home ac.authPath) acc))
      (resolveSwitchPattern home ac.switchPattern (expandPath home ac.authPath) acc) = none ∧
    containsStr (List.insertionSort strLe (ac.accounts ++ [acc])) acc = true ∧
    fsLookup (fsRemoveAll fs1 (resolveSwitchPattern home ac.switchPattern
        (expandPath home ac.authPath) acc)) s.configPath = fsLookup fs s.configPath := by
  refine ⟨?_, fsRemoveAll_lookup_self _ _, ?_, ?_⟩
  · unfold AddAccount
    rw [hac]
    simp only [hnew, Bool.false_eq_true, if_false, hcp]
    unfold saveConfig
    have hcfg : (SetAppConfig s app { ac with
        accounts := List.insertionSort strLe (ac.accounts ++ [acc]),
        current := if ac.current = "" then acc else ac.current }).configPath
        = s.configPath := rfl
    rw [hcfg, hdir]
  · rw [containsStr_eq_true_iff]
    rw [(List.perm_insertionSort strLe (ac.accounts ++ [acc])).mem_iff]
    simp
  · rw [fsRemoveAll_frame _ _ _ hnotunder]
    exact hnoalias

theorem addAccount_save_failure_rollback_witness :
    fsLookup (fsRemoveAll (rbFs ++ [("/h/auth.json.p1.switch", Entry.file "A")])
        (resolveSwitchPattern exHome "{auth_path}.{name}.switch"
          (expandPath exHome "/h/auth.json") "p1"))
      (resolveSwitchPattern exHome "{auth_path}.{name}.switch"
        (expandPath exHome "/h/auth.json") "p1") = none ∧
    containsStr (List.insertionSort strLe (["a"] ++ ["p1"])) "p1" = true ∧
    fsLookup (fsRemoveAll (rbFs ++ [("/h/auth.json.p1.switch", Entry.file "A")])
        (resolveSwitchPattern exHome "{auth_path}.{name}.switch"
          (expandPath exHome "/h/auth.json") "p1")) rbSw.configPath
      = fsLookup rbFs rbSw.configPath := by
  have h := addAccount_save_failure_rollback exHome "" rbSw rbFs "app" "p1"
    ⟨"a", ["a"], "/h/auth.json", "{auth_path}.{name}.switch"⟩
    (rbFs ++ [("/h/auth.json.p1.switch", Entry.file "A")])
    (by decide) (by decide) (by decide) (by decide) (by decide) (by decide)
  exact ⟨h.2.1, h.2.2.1, h.2.2.2⟩

/-! ## Claim C2: copy failure during a switch leaves the registry alone -/

/-- C2: if the copy of the target snapshot onto the live artifact path
fails, `SwitchAccount` returns the switch failure wrapping the copy error
and the registry is not updated: the returned `Switcher` is the input one
(`currentProfileName` keeps its value) and the save log is empty (no
registry persistence occurred).  The file system `fs2` reflects only the
preceding best-effort write-back of the outgoing profile. -/
theorem switch_copy_failure_no_registry_update
    (home : String) (s : Switcher) (fs fs2 : FS) (app name : String) (fuel : Nat)
    (ac : AppConfig) (e : CopyErr)
    (hac : GetAppConfig s app = some ac)
    (hne : name ≠ "") (hreg : containsStr ac.accounts name = true)
    (hsnap : (fsLookup fs (resolveSwitchPattern home ac.switchPattern
        (expandPath home ac.authPath) name)).isNone = false)
    (hcopy : copyPath (if findCurrentAccount home s fs app ≠ "" ∧
          findCurrentAccount home s fs app ≠ name then
        (copyPath fs (expandPath home ac.authPath)
          (resolveSwitchPattern home ac.switchPattern (expandPath home ac.authPath)
            (findCurrentAccount home s fs app))).1
      else fs)
      (resolveSwitchPattern home ac.switchPattern (expandPath home ac.authPath) name)
      (expandPath home ac.authPath) = (fs2, some e)) :
    SwitchAccountF home s fs app name (fuel + 1) =
      some ⟨s, fs2, some (Err.switchConfig e), []⟩ := by
  simp only [SwitchAccountF]
  rw [hac]
  simp only [hne, if_false, hreg, Bool.not_true, Bool.false_eq_true, hsnap]
  rw [hcopy]

theorem switch_copy_failure_no_registry_update_witness :
    SwitchAccountF exHome sfSw sfFs "app" "b" (0 + 1) =
      some ⟨sfSw, sfFs, some (Err.switchConfig CopyErr.openDstFailed), []⟩ :=
  switch_copy_failure_no_registry_update exHome sfSw sfFs sfFs "app" "b" 0
    ⟨"", ["a", "b"], "/h/authdir", "{auth_path}.{name}.switch"⟩ CopyErr.openDstFailed
    (by decide) (by decide) (by decide) (by decide) (by decide)

/-! ## Claim C5: cycling order -/

theorem nextAfterLoop_go (all : List String) (current : String) :
    ∀ (l : List String) (i j : Nat), l = all.drop i →
    j < all.length → all.getD j "" = current → i ≤ j →
    (∀ k, k < j → all.getD k "" ≠ current) →
    nextAfterLoop all current l i = all.getD ((j + 1) % all.length) "" := by
  intro l
  induction l with
  | nil =>
    intro i j hdrop hj hgot hij _
    have : all.length ≤ i := by
      by_contra hlt
      push_neg at hlt
      have := List.drop_eq_nil_iff.mp hdrop.symm
      omega
    omega
  | cons a rest ih =>
    intro i j hdrop hj hgot hij hfirst
    have hi : i < all.length := by
      by_contra hge
      push_neg at hge
      rw [List.drop_eq_nil_of_le hge] at hdrop
      exact List.noConfusion hdrop
    have ha : all.getD i "" = a := by
      have h0 : (all.drop i).getD 0 "" = a := by rw [← hdrop]; rfl
      rw [List.getD_eq_getElem?_getD] at h0 ⊢
      rw [List.getElem?_drop] at h0
      simpa using h0
    rw [nextAfterLoop]
    by_cases hcur : a = current
    · have hijeq : i = j := by
        by_contra hne
        have hilt : i < j := by omega
        exact hfirst i hilt (ha.trans hcur)
      subst hijeq
      rw [if_pos hcur]
    · rw [if_neg hcur]
      have hrest : rest = all.drop (i + 1) := by
        have : all.drop (i + 1) = (all.drop i).drop 1 := by
          rw [List.drop_drop]
        rw [this, ← hdrop]
        rfl
      have hij' : i + 1 ≤ j := by
        rcases Nat.lt_or_ge i j with hlt | hge
        · omega
        · have : i = j := by omega
          subst this
          exact absurd (ha.symm.trans hgot) hcur
      exact ih (i + 1) j hrest hj hgot hij' hfirst

/-- C5: `CycleAccounts` fails with the no-accounts error on an empty
profile list; otherwise it delegates to `SwitchAccount` on the first
profile when no current profile is detected, and on the cyclic successor
(wrapping at the end) of the detected current profile; concretely, from
profiles `a`,`b`,`c` with current `a`, three consecutive cycles visit
`b`, `c`, then `a` again, restoring the initial live content. -/
theorem cycle_profiles_spec :
    (∀ home s fs app fuel ac, GetAppConfig s app = some ac → ac.accounts = [] →
      CycleAccountsF home s fs app (fuel + 1) = some ⟨s, fs, some Err.noAccounts, []⟩) ∧
    (∀ home s fs app fuel ac, GetAppConfig s app = some ac → ac.accounts ≠ [] →
      findCurrentAccount home s fs app = "" →
      CycleAccountsF home s fs app (fuel + 1) =
        SwitchAccountF home s fs app (ac.accounts.getD 0 "") fuel) ∧
    (∀ home s fs app fuel ac j, GetAppConfig s app = some ac →
      ac.accounts.Nodup → j < ac.accounts.length →
      ac.accounts.getD j "" = findCurrentAccount home s fs app →
      findCurrentAccount home s fs app ≠ "" →
      ac.accounts.getD ((j + 1) % ac.accounts.length) "" ≠ "" →
      CycleAccountsF home s fs app (fuel + 1) =
        SwitchAccountF home s fs app
          (ac.accounts.getD ((j + 1) % ac.accounts.length) "") fuel) ∧
    ((exCycle1.map fun r => ((GetAppConfig r.sw "app").map AppConfig.current, r.err,
        fsLookup r.fs "/h/auth.json")) = some (some "b", none, some (Entry.file "B")) ∧
      (exCycle2.map fun r => ((GetAppConfig r.sw "app").map AppConfig.current, r.err,
        fsLookup r.fs "/h/auth.json")) = some (some "c", none, some (Entry.file "C")) ∧
      (exCycle3.map fun r => ((GetAppConfig r.sw "app").map AppConfig.current, r.err,
        fsLookup r.fs "/h/auth.json")) = some (some "a", none, some (Entry.file "A"))) := by
  refine ⟨?_, ?_, ?_, by decide⟩
  · intro home s fs app fuel ac hac hempty
    simp only [CycleAccountsF]
    rw [hac]
    simp [hempty]
  · intro home s fs app fuel ac hac hne hcur
    simp only [CycleAccountsF]
    rw [hac]
    have hlen : ¬ ac.accounts.length = 0 := by
      simpa [List.length_eq_zero] using hne
    simp [hlen, hcur]
  · intro home s fs app fuel ac j hac hnodup hj hget hcur hnext
    simp only [CycleAccountsF]
    rw [hac]
    have hlen : ¬ ac.accounts.length = 0 := by
      intro h0
      rw [h0] at hj
      omega
    have hfirst : ∀ k, k < j → ac.accounts.getD k "" ≠ findCurrentAccount home s fs app := by
      intro k hk hkeq
      have hk' : k < ac.accounts.length := by omega
      rw [List.getD_eq_getElem _ _ hk'] at hkeq
      rw [List.getD_eq_getElem _ _ hj] at hget
      have : ac.accounts[k] = ac.accounts[j] := by rw [hkeq, hget]
      have := (List.Nodup.getElem_inj_iff hnodup).mp this
      omega
    have hloop := nextAfterLoop_go ac.accounts (findCurrentAccount home s fs app)
      ac.accounts 0 j rfl hj hget (Nat.zero_le j) hfirst
    simp only [hlen, if_false, hcur, hloop, hnext]

theorem cycle_profiles_spec_witness :
    CycleAccountsF exHome exSw exFs "app" (1 + 1) =
      SwitchAccountF exHome exSw exFs "app"
        (exAc.accounts.getD ((0 + 1) % exAc.accounts.length) "") 1 :=
  cycle_profiles_spec.2.2.1 exHome exSw exFs "app" 1 exAc 0 (by decide) (by decide)
    (by decide) (by decide) (by decide) (by decide)

/-! ## Order lemmas for the byte-wise string order -/

theorem charToNat_inj {a b : Char} (h : a.toNat = b.toNat) : a = b :=
  Char.eq_of_val_eq (UInt32.ext h)

theorem charsLt_asymm : ∀ a b : List Char, charsLt a b = true → charsLt b a = false := by
  intro a
  induction a with
  | nil =>
    intro b h
    cases b with
    | nil => simpa [charsLt] using h
    | cons c cs => simp [charsLt]
  | cons x xs ih =>
    intro b h
    cases b with
    | nil => simp [charsLt] at h
    | cons y ys =>
      by_cases hxy : x = y
      · subst hxy
        simp only [charsLt, if_pos rfl] at h ⊢
        exact ih ys h
      · simp only [charsLt, if_neg hxy] at h
        simp only [charsLt, if_neg (fun hyx : y = x => hxy hyx.symm)]
        simp only [decide_eq_true_eq] at h
        simp only [decide_eq_false_iff_not]
        omega

theorem charsLt_conn : ∀ a b : List Char,
    charsLt a b = false → charsLt b a = false → a = b := by
  intro a
  induction a with
  | nil =>
    intro b h1 _
    cases b with
    | nil => rfl
    | cons c cs => simp [charsLt] at h1
  | cons x xs ih =>
    intro b h1 h2
    cases b with
    | nil => simp [charsLt] at h2
    | cons y ys =>
      by_cases hxy : x = y
      · subst hxy
        simp only [charsLt, if_pos rfl] at h1 h2
        rw [ih ys h1 h2]
      · simp only [charsLt, if_neg hxy] at h1
        simp only [charsLt, if_neg (fun hyx : y = x => hxy hyx.symm)] at h2
        simp only [decide_eq_false_iff_not] at h1 h2
        exact absurd (charToNat_inj (by omega)) hxy

theorem charsLt_trans : ∀ a b c : List Char,
    charsLt a b = true → charsLt b c = true → charsLt a c = true := by
  intro a
  induction a with
  | nil =>
    intro b c h1 h2
    cases b with
    | nil => simp [charsLt] at h1
    | cons y ys =>
      cases c with
      | nil => simp [charsLt] at h2
      | cons z zs => simp [charsLt]
  | cons x xs ih =>
    intro b c h1 h2
    cases b with
    | nil => simp [charsLt] at h1
    | cons y ys =>
      cases c with
      | nil => simp [charsLt] at h2
      | cons z zs =>
        by_cases hxy : x = y <;> by_cases hyz : y = z
        · subst hxy
          subst hyz
          simp only [charsLt, if_pos rfl] at h1 h2 ⊢
          exact ih ys zs h1 h2
        · subst hxy
          simp only [charsLt, if_pos rfl, if_neg hyz] at h2
          simp only [charsLt, if_neg hyz]
          exact h2
        · subst hyz
          simp only [charsLt, if_neg hxy] at h1
          simp only [charsLt, if_neg hxy]
          exact h1
        · simp only [charsLt, if_neg hxy] at h1
          simp only [charsLt, if_neg hyz] at h2
          simp only [decide_eq_true_eq] at h1 h2
          by_cases hxz : x = z
          · subst hxz
            omega
          · simp only [charsLt, if_neg hxz, decide_eq_true_eq]
            omega

instance : IsTotal String strLe := by
  constructor
  intro a b
  by_cases h : charsLt b.toList a.toList = true
  · right
    exact charsLt_asymm _ _ h
  · left
    simpa [strLe] using h

instance : IsTrans String strLe := by
  constructor
  intro a b c hab hbc
  unfold strLe at *
  by_cases hca : charsLt c.toList a.toList = true
  · by_cases h1 : charsLt a.toList b.toList = true
    · rw [charsLt_trans _ _ _ hca h1] at hbc
      exact absurd hbc (by simp)
    · have h2 : a.toList = b.toList := charsLt_conn _ _ (by simpa using h1) hab
      rw [← h2] at hbc
      rw [hbc] at hca
      exact absurd hca (by simp)
  · simpa using hca

theorem strLe_antisymm (a b : String) (h1 : strLe a b) (h2 : strLe b a) : a = b := by
  unfold strLe at h1 h2
  have hdata : a.toList = b.toList := charsLt_conn _ _ h2 h1
  cases a
  cases b
  exact congrArg String.mk hdata

/-! ## Claim C9: the registry's profile lists stay sorted and duplicate-free -/

theorem engine_accounts_unchanged : ∀ fuel : Nat,
    (∀ home s fs app name out, SwitchAccountF home s fs app name fuel = some out →
      ∀ q, (GetAppConfig out.sw q).map AppConfig.accounts =
        (GetAppConfig s q).map AppConfig.accounts) ∧
    (∀ home s fs app out, CycleAccountsF home s fs app fuel = some out →
      ∀ q, (GetAppConfig out.sw q).map AppConfig.accounts =
        (GetAppConfig s q).map AppConfig.accounts) := by
  intro fuel
  induction fuel with
  | zero =>
    constructor
    · intro home s fs app name out h
      simp [SwitchAccountF] at h
    · intro home s fs app out h
      simp [CycleAccountsF] at h
  | succ n ih =>
    constructor
    · intro home s fs app name out h q
      simp only [SwitchAccountF] at h
      rcases hg : GetAppConfig s app with _ | ac
      · rw [hg] at h
        simp only [Option.some.injEq] at h
        rw [← h]
      · rw [hg] at h
        simp only at h
        by_cases hname : name = ""
        · rw [if_pos hname] at h
          exact ih.2 home s fs app out h q
        · rw [if_neg hname] at h
          by_cases hcont : containsStr ac.accounts name = true
          · simp only [hcont, Bool.not_true, Bool.false_eq_true, if_false] at h
            by_cases hsnap : (fsLookup fs (resolveSwitchPattern home ac.switchPattern
                (expandPath home ac.authPath) name)).isNone = true
            · rw [if_pos hsnap] at h
              simp only [Option.some.injEq] at h
              rw [← h]
            · rw [if_neg hsnap] at h
              rcases hcp : copyPath (if findCurrentAccount home s fs app ≠ "" ∧
                    findCurrentAccount home s fs app ≠ name then
                  (copyPath fs (expandPath home ac.authPath)
                    (resolveSwitchPattern home ac.switchPattern (expandPath home ac.authPath)
                      (findCurrentAccount home s fs app))).1
                else fs)
                (resolveSwitchPattern home ac.switchPattern (expandPath home ac.authPath) name)
                (expandPath home ac.authPath) with ⟨fs2, e2⟩
              rw [hcp] at h
              rcases e2 with _ | e
              · simp only [Option.some.injEq] at h
                rw [← h]
                simp only [SetAppConfig, GetAppConfig]
                by_cases hq : q = app
                · subst hq
                  rw [assocLookup_assocSet_self]
                  have hrhs : assocLookup s.config.apps q = some ac := hg
                  rw [hrhs]
                  simp
                · rw [assocLookup_assocSet_ne _ _ _ _ hq]
              · simp only [Option.some.injEq] at h
                rw [← h]
          · simp only [hcont] at h
            simp only [Bool.not_false, if_true, Option.some.injEq] at h
            rw [← h]
    · intro home s fs app out h q
      simp only [CycleAccountsF] at h
      rcases hg : GetAppConfig s app with _ | ac
      · rw [hg] at h
        simp only [Option.some.injEq] at h
        rw [← h]
      · rw [hg] at h
        simp only at h
        by_cases hlen : ac.accounts.length = 0
        · rw [if_pos hlen] at h
          simp only [Option.some.injEq] at h
          rw [← h]
        · rw [if_neg hlen] at h
          exact ih.1 home s fs app _ out h q

theorem nodup_sortAppend (l : List String) (x : String) (hn : l.Nodup)
    (hc : containsStr l x = false) : (List.insertionSort strLe (l ++ [x])).Nodup := by
  rw [(List.perm_insertionSort strLe (l ++ [x])).nodup_iff, List.nodup_append]
  refine ⟨hn, List.nodup_singleton x, ?_⟩
  intro y hy hym
  have hxy : y = x := by simpa using hym
  subst hxy
  rw [← containsStr_eq_true_iff] at hy
  rw [hy] at hc
  exact Bool.noConfusion hc

theorem addAccount_preserves_invariant (home stdin : String) (s : Switcher) (fs : FS)
    (app acc : String) (hinv : AccountsSortedNodup s) :
    AccountsSortedNodup (AddAccount home stdin s fs app acc).sw := by
  have hstep' : ∀ (cur : String) (accs : List String) (ap sp : String),
      accs.Sorted strLe → accs.Nodup →
      AccountsSortedNodup (SetAppConfig s app ⟨cur, accs, ap, sp⟩) := by
    intro cur accs ap sp hsort hnodup q ac' hq
    simp only [SetAppConfig, GetAppConfig] at hq
    by_cases hqa : q = app
    · subst hqa
      rw [assocLookup_assocSet_self] at hq
      rw [← Option.some.inj hq]
      exact ⟨hsort, hnodup⟩
    · rw [assocLookup_assocSet_ne _ _ _ _ hqa] at hq
      exact hinv q ac' hq
  unfold AddAccount
  rcases hg : GetAppConfig s app with _ | ac <;> simp only [hg]
  · rcases ht : assocLookup AppTemplates app with _ | tpl <;> simp only [ht]
    · exact hinv
    · by_cases hauth : (fsLookup fs (expandPath home tpl.authPath)).isNone = true
      · rw [if_pos hauth]
        exact hinv
      · rw [if_neg hauth]
        show AccountsSortedNodup
          (match copyPath fs (expandPath home tpl.authPath)
              (resolveSwitchPattern home tpl.pattern (expandPath home tpl.authPath) acc) with
            | (fs1, some e) => (⟨s, fs1, some (Err.copyConfig e), []⟩ : EngineOut)
            | (fs1, none) =>
              match saveConfig fs1 (SetAppConfig s app
                  ⟨acc, List.insertionSort strLe ([] ++ [acc]), tpl.authPath, tpl.pattern⟩) with
              | (fs2, false) =>
                ⟨SetAppConfig s app
                    ⟨acc, List.insertionSort strLe ([] ++ [acc]), tpl.authPath, tpl.pattern⟩,
                  fsRemoveAll fs2
                    (resolveSwitchPattern home tpl.pattern (expandPath home tpl.authPath) acc),
                  some Err.createConfigFailed, [false]⟩
              | (fs2, true) =>
                ⟨SetAppConfig s app
                    ⟨acc, List.insertionSort strLe ([] ++ [acc]), tpl.authPath, tpl.pattern⟩,
                  fs2, none, [true]⟩).sw
        rcases hcp : copyPath fs (expandPath home tpl.authPath)
            (resolveSwitchPattern home tpl.pattern (expandPath home tpl.authPath) acc)
          with ⟨fs1, e1⟩
        rcases e1 with _ | e
        · show AccountsSortedNodup
            ((match saveConfig fs1 (SetAppConfig s app
                ⟨acc, List.insertionSort strLe ([] ++ [acc]), tpl.authPath, tpl.pattern⟩) with
              | (fs2, false) =>
                (⟨SetAppConfig s app
                    ⟨acc, List.insertionSort strLe ([] ++ [acc]), tpl.authPath, tpl.pattern⟩,
                  fsRemoveAll fs2
                    (resolveSwitchPattern home tpl.pattern (expandPath home tpl.authPath) acc),
                  some Err.createConfigFailed, [false]⟩ : EngineOut)
              | (fs2, true) =>
                ⟨SetAppConfig s app
                    ⟨acc, List.insertionSort strLe ([] ++ [acc]), tpl.authPath, tpl.pattern⟩,
                  fs2, none, [true]⟩).sw)
          split
          all_goals show AccountsSortedNodup (SetAppConfig s app
            ⟨acc, List.insertionSort strLe ([] ++ [acc]), tpl.authPath, tpl.pattern⟩)
          all_goals exact hstep' _ _ _ _ (List.sorted_insertionSort _ _) (nodup_sortAppend [] acc List.nodup_nil rfl)
        · exact hinv
  · repeat' split
    all_goals first
      | exact hinv
      | exact hstep' _ _ _ _ (hinv app ac hg).1 (hinv app ac hg).2
      | exact hstep' _ _ _ _ (List.sorted_insertionSort _ _) (nodup_sortAppend _ _ (hinv app ac hg).2 (by simp_all))

/-- A state whose per-app accounts lists agree with those of an invariant
state satisfies the invariant. -/
theorem invariant_of_accounts_eq (s t : Switcher)
    (h : ∀ q, (GetAppConfig t q).map AppConfig.accounts =
      (GetAppConfig s q).map AppConfig.accounts)
    (hinv : AccountsSortedNodup s) : AccountsSortedNodup t := by
  intro q ac' hq
  have hh := h q
  rw [hq] at hh
  rcases hg : GetAppConfig s q with _ | ac
  · rw [hg] at hh
    simp at hh
  · rw [hg] at hh
    have hacc : ac'.accounts = ac.accounts := by simpa using hh
    rw [hacc]
    exact hinv q ac hg

/-- `SetDefaultApp` never touches the per-app table. -/
theorem setDefaultApp_apps_eq (s : Switcher) (fs : FS) (app : String) :
    (SetDefaultApp s fs app).sw.config.apps = s.config.apps := by
  unfold SetDefaultApp
  rcases h : GetAppConfig s app with _ | ac <;> simp only [h]
  split <;> rfl

/-- C9: the per-application accounts list is kept sorted and duplicate-free
by every engine operation: `AddAccount` preserves the invariant, while
`SwitchAccount` and `CycleAccounts` (at any fuel) and `SetDefaultApp` leave
every accounts list unchanged, hence also preserve the invariant. -/
theorem profiles_sorted_nodup_invariant :
    (∀ home stdin s fs app acc, AccountsSortedNodup s →
      AccountsSortedNodup (AddAccount home stdin s fs app acc).sw) ∧
    (∀ fuel home s fs app name out, SwitchAccountF home s fs app name fuel = some out →
      (∀ q, (GetAppConfig out.sw q).map AppConfig.accounts =
        (GetAppConfig s q).map AppConfig.accounts) ∧
      (AccountsSortedNodup s → AccountsSortedNodup out.sw)) ∧
    (∀ fuel home s fs app out, CycleAccountsF home s fs app fuel = some out →
      (∀ q, (GetAppConfig out.sw q).map AppConfig.accounts =
        (GetAppConfig s q).map AppConfig.accounts) ∧
      (AccountsSortedNodup s → AccountsSortedNodup out.sw)) ∧
    (∀ s fs app, (SetDefaultApp s fs app).sw.config.apps = s.config.apps ∧
      (AccountsSortedNodup s → AccountsSortedNodup (SetDefaultApp s fs app).sw)) := by
  refine ⟨fun home stdin s fs app acc hinv =>
      addAccount_preserves_invariant home stdin s fs app acc hinv, ?_, ?_, ?_⟩
  · intro fuel home s fs app name out h
    have he := (engine_accounts_unchanged fuel).1 home s fs app name out h
    exact ⟨he, invariant_of_accounts_eq s out.sw he⟩
  · intro fuel home s fs app out h
    have he := (engine_accounts_unchanged fuel).2 home s fs app out h
    exact ⟨he, invariant_of_accounts_eq s out.sw he⟩
  · intro s fs app
    refine ⟨setDefaultApp_apps_eq s fs app, fun hinv => ?_⟩
    refine invariant_of_accounts_eq s _ (fun q => ?_) hinv
    simp only [GetAppConfig, setDefaultApp_apps_eq s fs app]

/-- The cycling example state satisfies the invariant. -/
theorem exSw_invariant : AccountsSortedNodup exSw := by
  intro q ac hq
  simp only [GetAppConfig, exSw, assocLookup] at hq
  by_cases h : "app" = q
  · rw [if_pos h] at hq
    rw [← Option.some.inj hq]
    constructor
    · decide
    · decide
  · rw [if_neg h] at hq
    exact Option.noConfusion hq

/-- Witness: the invariant statement applied to the concrete cycling
scenario, one engine operation per conjunct. -/
theorem profiles_sorted_nodup_invariant_witness :
    AccountsSortedNodup (AddAccount exHome "" exSw exFs "app" "d").sw ∧
    AccountsSortedNodup
      ((SwitchAccountF exHome exSw exFs "app" "b" 1).getD ⟨exSw, [], none, []⟩).sw ∧
    AccountsSortedNodup
      ((CycleAccountsF exHome exSw exFs "app" 3).getD ⟨exSw, [], none, []⟩).sw ∧
    (SetDefaultApp exSw exFs "app").sw.config.apps = exSw.config.apps :=
  ⟨profiles_sorted_nodup_invariant.1 exHome "" exSw exFs "app" "d" exSw_invariant,
   (profiles_sorted_nodup_invariant.2.1 1 exHome exSw exFs "app" "b" _ (by decide)).2
     exSw_invariant,
   (profiles_sorted_nodup_invariant.2.2.1 3 exHome exSw exFs "app" _ (by decide)).2
     exSw_invariant,
   (profiles_sorted_nodup_invariant.2.2.2 exSw exFs "app").1⟩

instance : IsTotal (String × JVal) kvLe :=
  ⟨fun a b => @IsTotal.total String strLe _ a.1 b.1⟩

instance : IsTrans (String × JVal) kvLe :=
  ⟨fun a b c h1 h2 => @IsTrans.trans String strLe _ a.1 b.1 c.1 h1 h2⟩

/-- `JVal.eqb` and its list forms are reflexive (size-bounded induction). -/
theorem eqb_refl_bounded : ∀ n : Nat,
    (∀ v : JVal, JVal.msize v ≤ n → JVal.eqb v v = true) ∧
    (∀ xs : List JVal, JVal.msizeList xs ≤ n → JVal.eqbList xs xs = true) ∧
    (∀ kvs : List (String × JVal), JVal.msizeKV kvs ≤ n → JVal.eqbKVList kvs kvs = true) := by
  intro n
  induction n with
  | zero =>
    refine ⟨fun v hv => absurd hv ?_, fun xs hxs => ?_, fun kvs hkvs => ?_⟩
    · cases v <;> simp [JVal.msize]
    · cases xs with
      | nil => rfl
      | cons x xs => exact absurd hxs (by simp [JVal.msizeList])
    · cases kvs with
      | nil => rfl
      | cons kv kvs => exact absurd hkvs (by simp [JVal.msizeKV])
  | succ n ih =>
    obtain ⟨ihv, ihl, ihk⟩ := ih
    refine ⟨fun v hv => ?_, fun xs hxs => ?_, fun kvs hkvs => ?_⟩
    · cases v with
      | jnull => rfl
      | jbool b => simp [JVal.eqb]
      | jnum q => simp [JVal.eqb]
      | jstr s => simp [JVal.eqb]
      | jarr xs =>
        have hle : JVal.msizeList xs ≤ n := by
          simp only [JVal.msize] at hv
          omega
        simpa [JVal.eqb] using ihl xs hle
      | jobj kvs =>
        have hle : JVal.msizeKV kvs ≤ n := by
          simp only [JVal.msize] at hv
          omega
        simpa [JVal.eqb] using ihk kvs hle
    · cases xs with
      | nil => rfl
      | cons x xs =>
        have h1 : JVal.msize x ≤ n := by
          simp only [JVal.msizeList] at hxs
          omega
        have h2 : JVal.msizeList xs ≤ n := by
          simp only [JVal.msizeList] at hxs
          omega
        simp [JVal.eqbList, ihv x h1, ihl xs h2]
    · cases kvs with
      | nil => rfl
      | cons kv kvs =>
        rcases kv with ⟨k, v⟩
        have h1 : JVal.msize v ≤ n := by
          simp only [JVal.msizeKV] at hkvs
          omega
        have h2 : JVal.msizeKV kvs ≤ n := by
          simp only [JVal.msizeKV] at hkvs
          omega
        simp [JVal.eqbKVList, ihv v h1, ihk kvs h2]

/-- Reflexivity of member-list equality. -/
theorem eqbKVList_refl (kvs : List (String × JVal)) : JVal.eqbKVList kvs kvs = true :=
  (eqb_refl_bounded (JVal.msizeKV kvs)).2.2 kvs le_rfl

/-- `msizeKV` only depends on the multiset of members. -/
theorem msizeKV_perm {xs ys : List (String × JVal)} (h : xs.Perm ys) :
    JVal.msizeKV xs = JVal.msizeKV ys := by
  induction h with
  | nil => rfl
  | cons x h ih => simp only [JVal.msizeKV, ih]
  | swap x y l =>
    simp only [JVal.msizeKV]
    omega
  | trans h1 h2 ih1 ih2 => exact ih1.trans ih2

/-- Two sorted member lists that are permutations of each other and have
duplicate-free keys are equal. -/
theorem kv_sorted_perm_nodup_eq : ∀ xs ys : List (String × JVal),
    xs.Perm ys → List.Sorted kvLe xs → List.Sorted kvLe ys →
    (xs.map Prod.fst).Nodup → xs = ys := by
  intro xs
  induction xs with
  | nil =>
    intro ys hp _ _ _
    exact hp.nil_eq
  | cons a xs ih =>
    intro ys hp hsx hsy hnd
    rw [List.map_cons, List.nodup_cons] at hnd
    cases ys with
    | nil =>
      have := hp.length_eq
      simp at this
    | cons b ys =>
      have hb : b = a := by
        by_contra hne
        have hbmem : b ∈ a :: xs := hp.symm.subset (List.mem_cons_self b ys)
        have hbxs : b ∈ xs := by
          rcases List.mem_cons.mp hbmem with h | h
          · exact absurd h hne
          · exact h
        have hamem : a ∈ b :: ys := hp.subset (List.mem_cons_self a xs)
        have hays : a ∈ ys := by
          rcases List.mem_cons.mp hamem with h | h
          · exact absurd h.symm hne
          · exact h
        have h1 : kvLe a b := (List.sorted_cons.mp hsx).1 b hbxs
        have h2 : kvLe b a := (List.sorted_cons.mp hsy).1 a hays
        have hk : a.1 = b.1 := strLe_antisymm _ _ h1 h2
        exact hnd.1 (by rw [hk]; exact List.mem_map.mpr ⟨b, hbxs, rfl⟩)
      subst hb
      have hp' : xs.Perm ys := hp.cons_inv
      rw [ih ys hp' (List.sorted_cons.mp hsx).2 (List.sorted_cons.mp hsy).2 hnd.2]

/-- Sorting the image of a key-preserving map is permutation-invariant on
duplicate-free keys. -/
theorem sortMap_perm_eq (g : String × JVal → String × JVal)
    (hg : ∀ kv, (g kv).1 = kv.1) (xs ys : List (String × JVal))
    (hp : xs.Perm ys) (hnd : (xs.map Prod.fst).Nodup) :
    List.insertionSort kvLe (xs.map g) = List.insertionSort kvLe (ys.map g) := by
  have hfp : (xs.map g).Perm (ys.map g) := hp.map g
  have hsp : (List.insertionSort kvLe (xs.map g)).Perm
      (List.insertionSort kvLe (ys.map g)) :=
    (List.perm_insertionSort kvLe (xs.map g)).trans
      (hfp.trans (List.perm_insertionSort kvLe (ys.map g)).symm)
  have hmapfst : (xs.map g).map Prod.fst = xs.map Prod.fst := by
    rw [List.map_map]
    have hcomp : Prod.fst ∘ g = Prod.fst := funext fun kv => hg kv
    rw [hcomp]
  have hndx : ((List.insertionSort kvLe (xs.map g)).map Prod.fst).Nodup := by
    have h2 := (List.perm_insertionSort kvLe (xs.map g)).map Prod.fst
    rw [hmapfst] at h2
    exact h2.nodup_iff.mpr hnd
  exact kv_sorted_perm_nodup_eq _ _ hsp (List.sorted_insertionSort kvLe _)
    (List.sorted_insertionSort kvLe _) hndx

/-- Canonicalising an object document sorts its (recursively canonicalised)
members by key. -/
theorem canonDoc_some (xs : List (String × JVal)) :
    canonDoc (some xs) = some (List.insertionSort kvLe
      (xs.map fun kv => (kv.1, canonF (JVal.msizeKV xs) kv.2))) := by
  have h : JVal.msize (JVal.jobj xs) = JVal.msizeKV xs + 1 := by
    simp [JVal.msize, Nat.add_comm]
  simp only [canonDoc, JVal.canon, h, canonF]

/-- `jsonEqual` identifies key-permuted documents (duplicate-free keys). -/
theorem jsonEqual_perm (xs ys : List (String × JVal)) (hp : xs.Perm ys)
    (hnd : (xs.map Prod.fst).Nodup) : jsonEqual (some xs) (some ys) = true := by
  have hms := msizeKV_perm hp
  have heq : List.insertionSort kvLe
      (xs.map fun kv => (kv.1, canonF (JVal.msizeKV xs) kv.2)) =
      List.insertionSort kvLe (ys.map fun kv => (kv.1, canonF (JVal.msizeKV xs) kv.2)) :=
    sortMap_perm_eq (fun kv => (kv.1, canonF (JVal.msizeKV xs) kv.2))
      (fun kv => rfl) xs ys hp hnd
  unfold jsonEqual
  rw [canonDoc_some, canonDoc_some, ← hms, heq]
  exact eqbKVList_refl _

/-- C7: `fileEqual` on two regular files compares parsed JSON documents
structurally when both parse (`jsonEqual`), in a way that ignores key
order, object member order and whitespace but distinguishes values, and
falls back to byte equality when either side fails to parse. -/
theorem fileEqual_json_semantics :
    (∀ fs a b aD bD da db,
      fsLookup fs a = some (Entry.file aD) → fsLookup fs b = some (Entry.file bD) →
      unmarshalMap aD = some da → unmarshalMap bD = some db →
      fileEqual fs a b = jsonEqual da db) ∧
    (∀ fs a b aD bD,
      fsLookup fs a = some (Entry.file aD) → fsLookup fs b = some (Entry.file bD) →
      unmarshalMap aD = none ∨ unmarshalMap bD = none →
      fileEqual fs a b = decide (aD = bD)) ∧
    (∀ xs ys : List (String × JVal), xs.Perm ys → (xs.map Prod.fst).Nodup →
      jsonEqual (some xs) (some ys) = true) ∧
    (fileEqual jsonFs "/j/a" "/j/b" = true ∧
     fileEqual jsonFs "/j/d" "/j/c" = false ∧
     fileEqual jsonFs "/j/a" "/j/e" = true ∧
     fileEqual jsonFs "/j/t" "/j/u" = true ∧
     fileEqual jsonFs "/j/t" "/j/v" = false) := by
  refine ⟨?_, ?_, ?_, by decide, by decide, by decide, by decide, by decide⟩
  · intro fs a b aD bD da db ha hb hda hdb
    simp [fileEqual, ha, hb, hda, hdb]
  · intro fs a b aD bD ha hb hfail
    rcases hfail with hfa | hfb
    · simp [fileEqual, ha, hb, hfa]
    · rcases hda : unmarshalMap aD with _ | da <;> simp [fileEqual, ha, hb, hda, hfb]
  · exact fun xs ys hp hnd => jsonEqual_perm xs ys hp hnd

/-- Witness: the key-permutation conjunct at the claim's own example pair. -/
theorem fileEqual_json_semantics_witness :
    jsonEqual (some [("k", JVal.jnum 1), ("z", JVal.jnum 2)])
      (some [("z", JVal.jnum 2), ("k", JVal.jnum 1)]) = true :=
  fileEqual_json_semantics.2.2.1 _ _ (List.Perm.swap _ _ _) (by decide)

/-- `splitSlash` always yields at least one segment. -/
theorem splitSlash_ne_nil : ∀ l : List Char, splitSlash l ≠ [] := by
  intro l
  induction l with
  | nil => simp [splitSlash]
  | cons c cs ih =>
    by_cases hc : c = '/'
    · subst hc
      simp [splitSlash]
    · simp only [splitSlash, hc]
      rcases h : splitSlash cs with _ | ⟨s, ss⟩
      · exact absurd h ih
      · simp

/-- Segments produced by `splitSlash` contain no separator. -/
theorem splitSlash_no_slash : ∀ l : List Char, ∀ s ∈ splitSlash l, ('/' : Char) ∉ s := by
  intro l
  induction l with
  | nil =>
    intro s hs
    simp [splitSlash] at hs
    simp [hs]
  | cons c cs ih =>
    intro s hs
    by_cases hc : c = '/'
    · subst hc
      simp only [splitSlash] at hs
      rcases List.mem_cons.mp hs with h | h
      · simp [h]
      · exact ih s h
    · simp only [splitSlash, hc] at hs
      rcases hsp : splitSlash cs with _ | ⟨t, ts⟩
      · exact absurd hsp (splitSlash_ne_nil cs)
      · rw [hsp] at hs
        rcases List.mem_cons.mp hs with h | h
        · subst h
          intro hmem
          rcases List.mem_cons.mp hmem with h | h
          · exact hc h.symm
          · exact ih t (by rw [hsp]; exact List.mem_cons_self t ts) h
        · exact ih s (by rw [hsp]; exact List.mem_cons.mpr (Or.inr h))

/-- A slash-free character list is a single segment. -/
theorem splitSlash_single (s : List Char) (h : ('/' : Char) ∉ s) : splitSlash s = [s] := by
  induction s with
  | nil => rfl
  | cons c cs ih =>
    have hc : c ≠ '/' := fun hcc => h (by rw [hcc]; exact List.mem_cons_self _ _)
    have hcs : ('/' : Char) ∉ cs := fun hmem => h (List.mem_cons.mpr (Or.inr hmem))
    simp only [splitSlash, hc, ih hcs]

/-- Splitting after appending a separator splits off the head segment. -/
theorem splitSlash_append (s t : List Char) (h : ('/' : Char) ∉ s) :
    splitSlash (s ++ '/' :: t) = s :: splitSlash t := by
  induction s with
  | nil => rfl
  | cons c cs ih =>
    have hc : c ≠ '/' := fun hcc => h (by rw [hcc]; exact List.mem_cons_self _ _)
    have hcs : ('/' : Char) ∉ cs := fun hmem => h (List.mem_cons.mpr (Or.inr hmem))
    simp only [List.cons_append, splitSlash, hc, ih hcs]

/-- `splitSlash` inverts `joinSlash` on slash-free non-empty segment lists. -/
theorem splitSlash_joinSlash : ∀ segs : List (List Char), segs ≠ [] →
    (∀ s ∈ segs, ('/' : Char) ∉ s) → splitSlash (joinSlash segs) = segs := by
  intro segs
  induction segs with
  | nil => intro h; exact absurd rfl h
  | cons s rest ih =>
    intro _ hns
    cases rest with
    | nil => exact splitSlash_single s (hns s (List.mem_cons_self s []))
    | cons s2 rest2 =>
      have h1 : joinSlash (s :: s2 :: rest2) = s ++ '/' :: joinSlash (s2 :: rest2) := rfl
      rw [h1, splitSlash_append s _ (hns s (List.mem_cons_self s _))]
      rw [ih (by simp) fun t ht => hns t (List.mem_cons.mpr (Or.inr ht))]

/-- `cleanCore` appends segments that trigger no rewriting rule. -/
theorem cleanCore_pushes : ∀ (rooted : Bool) (rest : List (List Char)) (acc : List (List Char)),
    (∀ s ∈ rest, s ≠ [] ∧ s ≠ ['.'] ∧ s ≠ ddot) →
    cleanCore rooted rest acc = acc.reverse ++ rest := by
  intro rooted rest
  induction rest with
  | nil =>
    intro acc _
    simp [cleanCore]
  | cons s rest ih =>
    intro acc h
    obtain ⟨h1, h2, h3⟩ := h s (List.mem_cons_self s rest)
    simp only [cleanCore, if_neg h1, if_neg h2, if_neg h3]
    rw [ih (s :: acc) fun t ht => h t (List.mem_cons.mpr (Or.inr ht))]
    simp

/-- `cleanCore` keeps a leading run of `..` segments in a relative path. -/
theorem cleanCore_ddots : ∀ (n : Nat) (rest : List (List Char)) (k : Nat),
    (∀ s ∈ rest, s ≠ [] ∧ s ≠ ['.'] ∧ s ≠ ddot) →
    cleanCore false (List.replicate n ddot ++ rest) (List.replicate k ddot) =
      List.replicate (k + n) ddot ++ rest := by
  intro n
  induction n with
  | zero =>
    intro rest k h
    rw [List.replicate_zero, List.nil_append, cleanCore_pushes false rest _ h]
    simp [List.reverse_replicate]
  | succ n ih =>
    intro rest k h
    rw [List.replicate_succ, List.cons_append]
    have hd1 : (ddot : List Char) ≠ [] := by decide
    have hd2 : (ddot : List Char) ≠ ['.'] := by decide
    simp only [cleanCore, if_neg hd1, if_neg hd2, if_pos rfl]
    cases k with
    | zero =>
      rw [List.replicate_zero]
      have := ih rest 1 h
      rw [show (List.replicate 1 ddot : List (List Char)) = [ddot] from rfl] at this
      rw [this]
      have harith : 1 + n = 0 + (n + 1) := by omega
      rw [harith]
      simp
    | succ k =>
      rw [List.replicate_succ]
      simp only [if_pos rfl]
      have := ih rest (k + 2) h
      rw [show (List.replicate (k + 2) ddot : List (List Char)) =
        ddot :: ddot :: List.replicate k ddot by simp [List.replicate_succ]] at this
      rw [this]
      have harith : k + 2 + n = k + 1 + (n + 1) := by omega
      rw [harith]
      simp

/-- In a rooted path, `cleanCore` yields only plain segments: non-empty,
not `.`, not `..`, slash-free. -/
theorem cleanCore_normal_rooted : ∀ (segs acc : List (List Char)),
    (∀ s ∈ segs, ('/' : Char) ∉ s) →
    (∀ s ∈ acc, s ≠ [] ∧ s ≠ ['.'] ∧ s ≠ ddot ∧ ('/' : Char) ∉ s) →
    ∀ s ∈ cleanCore true segs acc, s ≠ [] ∧ s ≠ ['.'] ∧ s ≠ ddot ∧ ('/' : Char) ∉ s := by
  intro segs
  induction segs with
  | nil =>
    intro acc _ hacc s hs
    simp only [cleanCore] at hs
    exact hacc s (List.mem_reverse.mp hs)
  | cons t rest ih =>
    intro acc hsegs hacc s hs
    have hrest : ∀ u ∈ rest, ('/' : Char) ∉ u :=
      fun u hu => hsegs u (List.mem_cons.mpr (Or.inr hu))
    by_cases h1 : t = []
    · rw [show cleanCore true (t :: rest) acc = cleanCore true rest acc by
        simp [cleanCore, h1]] at hs
      exact ih acc hrest hacc s hs
    · by_cases h2 : t = ['.']
      · rw [show cleanCore true (t :: rest) acc = cleanCore true rest acc by
          simp [cleanCore, h1, h2]] at hs
        exact ih acc hrest hacc s hs
      · by_cases h3 : t = ddot
        · rcases hca : acc with _ | ⟨a, as⟩
          · rw [show cleanCore true (t :: rest) acc = cleanCore true rest [] by
              simp [cleanCore, h1, h2, h3, hca, ddot]] at hs
            exact ih [] hrest (by simp) s hs
          · have hane : a ≠ ddot := ((hacc a (by rw [hca]; exact List.mem_cons_self a as))).2.2.1
            have hane' : a ≠ ['.', '.'] := by simpa [ddot] using hane
            rw [show cleanCore true (t :: rest) acc = cleanCore true rest as by
              simp [cleanCore, h1, h2, h3, hca, hane', ddot]] at hs
            exact ih as hrest
              (fun u hu => hacc u (by rw [hca]; exact List.mem_cons.mpr (Or.inr hu))) s hs
        · rw [show cleanCore true (t :: rest) acc = cleanCore true rest (t :: acc) by
            simp [cleanCore, h1, h2, h3]] at hs
          refine ih (t :: acc) hrest ?_ s hs
          intro u hu
          rcases List.mem_cons.mp hu with h | h
          · subst h
            exact ⟨h1, h2, h3, hsegs u (List.mem_cons_self u rest)⟩
          · exact hacc u h

/-- In a relative path, `cleanCore` yields a run of `..` segments followed
by plain segments, provided the accumulator has that shape (plain part on
top). -/
theorem cleanCore_normal_unrooted : ∀ (segs f : List (List Char)) (n : Nat),
    (∀ s ∈ segs, ('/' : Char) ∉ s) →
    (∀ s ∈ f, s ≠ [] ∧ s ≠ ['.'] ∧ s ≠ ddot ∧ ('/' : Char) ∉ s) →
    ∃ m rest, cleanCore false segs (f ++ List.replicate n ddot) =
      List.replicate m ddot ++ rest ∧
      (∀ s ∈ rest, s ≠ [] ∧ s ≠ ['.'] ∧ s ≠ ddot ∧ ('/' : Char) ∉ s) := by
  intro segs
  induction segs with
  | nil =>
    intro f n _ hf
    refine ⟨n, f.reverse, ?_, fun s hs => hf s (List.mem_reverse.mp hs)⟩
    simp [cleanCore, List.reverse_append, List.reverse_replicate]
  | cons t rest ih =>
    intro f n hsegs hf
    have hrest : ∀ u ∈ rest, ('/' : Char) ∉ u :=
      fun u hu => hsegs u (List.mem_cons.mpr (Or.inr hu))
    by_cases h1 : t = []
    · rw [show cleanCore false (t :: rest) (f ++ List.replicate n ddot) =
        cleanCore false rest (f ++ List.replicate n ddot) by simp [cleanCore, h1]]
      exact ih f n hrest hf
    · by_cases h2 : t = ['.']
      · rw [show cleanCore false (t :: rest) (f ++ List.replicate n ddot) =
          cleanCore false rest (f ++ List.replicate n ddot) by simp [cleanCore, h1, h2]]
        exact ih f n hrest hf
      · by_cases h3 : t = ddot
        · rcases hcf : f with _ | ⟨g, gs⟩
          · cases n with
            | zero =>
              rw [show cleanCore false (t :: rest) ([] ++ List.replicate 0 ddot) =
                cleanCore false rest ([] ++ List.replicate 1 ddot) by
                  simp [cleanCore, h1, h2, h3, List.replicate_succ, ddot]]
              exact ih [] 1 hrest (by simp)
            | succ n =>
              rw [show cleanCore false (t :: rest) ([] ++ List.replicate (n + 1) ddot) =
                cleanCore false rest ([] ++ List.replicate (n + 2) ddot) by
                  simp [cleanCore, h1, h2, h3, List.replicate_succ, ddot]]
              exact ih [] (n + 2) hrest (by simp)
          · have hgne : g ≠ ddot := (hf g (by rw [hcf]; exact List.mem_cons_self g gs)).2.2.1
            have hgne' : g ≠ ['.', '.'] := by simpa [ddot] using hgne
            rw [show cleanCore false (t :: rest) ((g :: gs) ++ List.replicate n ddot) =
              cleanCore false rest (gs ++ List.replicate n ddot) by
                simp [cleanCore, h1, h2, h3, hgne', ddot]]
            exact ih gs n hrest
              (fun u hu => hf u (by rw [hcf]; exact List.mem_cons.mpr (Or.inr hu)))
        · rw [show cleanCore false (t :: rest) (f ++ List.replicate n ddot) =
            cleanCore false rest ((t :: f) ++ List.replicate n ddot) by
              simp [cleanCore, h1, h2, h3]]
          refine ih (t :: f) n hrest ?_
          intro u hu
          rcases List.mem_cons.mp hu with h | h
          · subst h
            exact ⟨h1, h2, h3, hsegs u (List.mem_cons_self u rest)⟩
          · exact hf u h

/-- `cleanChars` on a relative path is a relative render of `cleanCore`. -/
theorem cleanChars_cons_ne_slash (c : Char) (cs : List Char) (hc : c ≠ '/') :
    cleanChars (c :: cs) = renderPath false (cleanCore false (splitSlash (c :: cs)) []) := by
  simp only [cleanChars]
  split
  · rename_i heq
    injection heq with h1 h2
    exact absurd h1 hc
  · rfl

/-- A rooted render of plain segments is a fixed point of `cleanChars`. -/
theorem cleanChars_render_rooted (segs : List (List Char))
    (hn : ∀ s ∈ segs, s ≠ [] ∧ s ≠ ['.'] ∧ s ≠ ddot ∧ ('/' : Char) ∉ s) :
    cleanChars (renderPath true segs) = renderPath true segs := by
  cases segs with
  | nil => decide
  | cons s rest =>
    have hsne : s ≠ [] := (hn s (List.mem_cons_self s rest)).1
    rcases s with _ | ⟨c, cs⟩
    · exact absurd rfl hsne
    have h0 : renderPath true ((c :: cs) :: rest) = '/' :: joinSlash ((c :: cs) :: rest) := rfl
    rw [h0]
    have h1 : cleanChars ('/' :: joinSlash ((c :: cs) :: rest)) =
        renderPath true (cleanCore true
          (splitSlash ('/' :: joinSlash ((c :: cs) :: rest))) []) := rfl
    rw [h1]
    have h2 : splitSlash ('/' :: joinSlash ((c :: cs) :: rest)) =
        [] :: splitSlash (joinSlash ((c :: cs) :: rest)) := rfl
    rw [h2, splitSlash_joinSlash _ (by simp) fun t ht => (hn t ht).2.2.2]
    have h3 : cleanCore true ([] :: (c :: cs) :: rest) [] =
        cleanCore true ((c :: cs) :: rest) [] := by simp [cleanCore]
    rw [h3, cleanCore_pushes true _ [] fun t ht =>
      ⟨(hn t ht).1, (hn t ht).2.1, (hn t ht).2.2.1⟩]
    rfl

/-- A relative render of a `..`-run followed by plain segments is a fixed
point of `cleanChars`. -/
theorem cleanChars_render_unrooted (segs : List (List Char))
    (hn : ∀ s ∈ segs, s ≠ [] ∧ s ≠ ['.'] ∧ ('/' : Char) ∉ s)
    (hshape : ∃ n rest, segs = List.replicate n ddot ++ rest ∧ ∀ s ∈ rest, s ≠ ddot) :
    cleanChars (renderPath false segs) = renderPath false segs := by
  cases segs with
  | nil => decide
  | cons s rest1 =>
    have hsne : s ≠ [] := (hn s (List.mem_cons_self s rest1)).1
    rcases s with _ | ⟨c, cs⟩
    · exact absurd rfl hsne
    have hc : c ≠ '/' := by
      intro hcc
      exact (hn _ (List.mem_cons_self _ rest1)).2.2 (by rw [hcc]; exact List.mem_cons_self _ _)
    have h0 : renderPath false ((c :: cs) :: rest1) = joinSlash ((c :: cs) :: rest1) := by
      simp [renderPath]
    obtain ⟨t, ht⟩ : ∃ t, joinSlash ((c :: cs) :: rest1) = c :: t := by
      cases rest1 with
      | nil => exact ⟨cs, rfl⟩
      | cons s2 r2 => exact ⟨cs ++ '/' :: joinSlash (s2 :: r2), rfl⟩
    rw [h0, ht, cleanChars_cons_ne_slash c t hc, ← ht,
      splitSlash_joinSlash _ (by simp) fun u hu => (hn u hu).2.2]
    obtain ⟨n, rest2, hseq, hrest2⟩ := hshape
    have hfull : ∀ u ∈ rest2, u ≠ [] ∧ u ≠ ['.'] ∧ u ≠ ddot := by
      intro u hu
      have hmem : u ∈ (c :: cs) :: rest1 := by
        rw [hseq]
        exact List.mem_append.mpr (Or.inr hu)
      exact ⟨(hn u hmem).1, (hn u hmem).2.1, hrest2 u hu⟩
    rw [hseq]
    have hcc := cleanCore_ddots n rest2 0 hfull
    rw [show (List.replicate 0 ddot : List (List Char)) = [] from rfl] at hcc
    rw [hcc, Nat.zero_add, ← hseq, ← h0]

/-- `filepath.Clean` is idempotent (character level). -/
theorem cleanChars_idem (l : List Char) : cleanChars (cleanChars l) = cleanChars l := by
  rcases l with _ | ⟨c, cs⟩
  · decide
  · by_cases hc : c = '/'
    · subst hc
      have h1 : cleanChars ('/' :: cs) =
          renderPath true (cleanCore true (splitSlash ('/' :: cs)) []) := rfl
      rw [h1]
      exact cleanChars_render_rooted _
        (cleanCore_normal_rooted _ [] (splitSlash_no_slash _) (by simp))
    · rw [cleanChars_cons_ne_slash c cs hc]
      obtain ⟨m, rest, heq, hrest⟩ :=
        cleanCore_normal_unrooted (splitSlash (c :: cs)) [] 0 (splitSlash_no_slash _) (by simp)
      rw [show ([] ++ List.replicate 0 ddot : List (List Char)) = [] from rfl] at heq
      rw [heq]
      refine cleanChars_render_unrooted _ ?_ ⟨m, rest, rfl, fun s hs => (hrest s hs).2.2.1⟩
      intro s hs
      rcases List.mem_append.mp hs with h | h
      · have hsd : s = ddot := List.eq_of_mem_replicate h
        subst hsd
        refine ⟨by decide, by decide, by decide⟩
      · exact ⟨(hrest s h).1, (hrest s h).2.1, (hrest s h).2.2.2⟩

/-- Replacing backslashes is the identity on backslash-free input. -/
theorem backslashToSlash_id (l : List Char) (h : ('\\' : Char) ∉ l) :
    backslashToSlash l = l := by
  induction l with
  | nil => rfl
  | cons c cs ih =>
    have hc : c ≠ '\\' := fun hcc => h (by rw [hcc]; exact List.mem_cons_self _ _)
    have hcs : ('\\' : Char) ∉ cs := fun hmem => h (List.mem_cons.mpr (Or.inr hmem))
    simp only [backslashToSlash, List.map_cons, if_neg hc]
    exact congrArg (List.cons c) (ih hcs)

/-- Every non-empty input to `expandPath` ends in a `filepath.Clean`. -/
theorem expandPath_eq_clean (home p : String) (hp : p ≠ "") :
    ∃ X, expandPath home p = String.mk (cleanChars X) := by
  unfold expandPath
  rw [if_neg hp]
  exact ⟨_, rfl⟩

/-- A cleaned string that is not a tilde form is a fixed point of
`expandPath`. -/
theorem expandPath_clean_fixed (home : String) (X : List Char)
    (hb : ('\\' : Char) ∉ cleanChars X)
    (h1 : String.mk (cleanChars X) ≠ "~")
    (h2 : charsHaveHead ['~', '/'] (cleanChars X) = false) :
    expandPath home (String.mk (cleanChars X)) = String.mk (cleanChars X) := by
  by_cases hnil : cleanChars X = []
  · rw [hnil]
    rfl
  · have hqne : String.mk (cleanChars X) ≠ "" := by
      intro hcon
      exact hnil (congrArg String.toList hcon)
    simp only [expandPath, if_neg hqne]
    have htl : (String.mk (cleanChars X)).toList = cleanChars X := rfl
    rw [htl, backslashToSlash_id _ hb]
    have hne1 : cleanChars X ≠ ['~'] := by
      intro hcon
      exact h1 (by rw [hcon])
    by_cases ht : charsHaveHead ['~'] (cleanChars X) = true
    · rw [if_pos ht, if_neg hne1, if_neg (by simp [h2]),
        cleanChars_idem]
    · rw [if_neg ht, cleanChars_idem]

/-- C8 (amended): `expandPath` is idempotent on every input whose first
expansion contains no backslash and is not itself a tilde form (`~` or a
path starting with `~/`); the unrestricted statement fails, see the
counterexample. -/
theorem expandPath_idem (home p : String)
    (hb : ('\\' : Char) ∉ (expandPath home p).toList)
    (h1 : expandPath home p ≠ "~")
    (h2 : charsHaveHead ['~', '/'] (expandPath home p).toList = false) :
    expandPath home (expandPath home p) = expandPath home p := by
  by_cases hp : p = ""
  · subst hp
    rfl
  · obtain ⟨X, hX⟩ := expandPath_eq_clean home p hp
    rw [hX] at hb h1 h2 ⊢
    exact expandPath_clean_fixed home X hb h1 h2

/-- A `..`-escape that uncovers a tilde makes `expandPath` non-idempotent:
the first pass cleans `a/../~/b` to `~/b`, which the second pass expands
with the home directory. -/
theorem expandPath_not_idempotent_counterexample :
    expandPath exHome (expandPath exHome "a/../~/b") ≠ expandPath exHome "a/../~/b" := by
  decide

/-- Witness: idempotence at a concrete tilde input whose expansion is a
plain absolute path. -/
theorem expandPath_idem_witness :
    expandPath "/h" (expandPath "/h" "~/x/./y") = expandPath "/h" "~/x/./y" :=
  expandPath_idem "/h" "~/x/./y" (by decide) (by decide) (by decide)

end SwitchGo
